import Mathlib

/-!
Verification of the quality-scoring and filtering pipeline of the
training-data curation scripts.

The embedding models the Python code in
`src/training-data/scripts/clean_dataset.py` (class `DatasetCleaner`) and
`src/training-data/scripts/expand_collection.py` (class
`ExpandedDataCollector`).  Text is modelled as `List Char`; Python's float
scores are modelled as exact integer numbers of hundredths (every constant
involved — 0.02, 0.05, 0.1, 0.2, 0.3, 0.5 — is a multiple of 0.01, the
scores only ever add such constants, and the sums that occur are far from
any binary-float rounding boundary, so every comparison made by the code
agrees with the comparison of the hundredth counts).

Every regex substitution of `clean_text` is modelled as a left-to-right
scan (`scan` below) that at each position either emits the current
character and moves on, or consumes a match and emits its replacement,
exactly as `re.sub` does.  The scans are implemented with explicit fuel so
that they are structurally recursive and evaluate inside the kernel.
-/

set_option maxRecDepth 40000

namespace Spec2Proof

/-- Python's whitespace set: the characters matched by `\s` in `re` (unicode
mode), stripped by `str.strip()`, and split on by `str.split()`. -/
def isPySpace (c : Char) : Bool :=
  let n := c.toNat
  (9 ≤ n && n ≤ 13) || (28 ≤ n && n ≤ 31) || n == 32 || n == 0x85 ||
  n == 0xA0 || n == 0x1680 || (0x2000 ≤ n && n ≤ 0x200A) || n == 0x2028 ||
  n == 0x2029 || n == 0x202F || n == 0x205F || n == 0x3000

/-- ASCII digit. -/
def isDigitC (c : Char) : Bool := '0' ≤ c && c ≤ '9'

/-- Word character as matched by `\w` (modelled on the ASCII range; the
inputs of this development are ASCII). -/
def isWordC (c : Char) : Bool :=
  ('a' ≤ c && c ≤ 'z') || ('A' ≤ c && c ≤ 'Z') || isDigitC c || c == '_'

/-- ASCII lowercasing, modelling `str.lower()` (which agrees with it on the
characters occurring in this development). -/
def lowerAscii (c : Char) : Char :=
  if 'A' ≤ c && c ≤ 'Z' then Char.ofNat (c.toNat + 32) else c

def pyLower (l : List Char) : List Char := l.map lowerAscii

/-- Scan for the first occurrence of `pat`; return the suffix that follows
it, or `none` when `pat` does not occur. -/
def dropAfter (pat : List Char) : List Char → Option (List Char)
  | [] => none
  | c :: rest =>
      if pat.isPrefixOf (c :: rest) then some ((c :: rest).drop pat.length)
      else dropAfter pat rest

theorem dropAfter_length (pat : List Char) (hp : pat ≠ []) :
    ∀ s t, dropAfter pat s = some t → t.length < s.length := by
  intro s
  induction s with
  | nil => intro t h; simp [dropAfter] at h
  | cons c rest ih =>
      intro t h
      rw [dropAfter] at h
      split at h
      · rename_i hpre
        have hlen : pat.length ≤ (c :: rest).length :=
          (List.isPrefixOf_iff_prefix.mp hpre).length_le
        have h0 : 0 < pat.length := List.length_pos.mpr hp
        simp only [Option.some.injEq] at h
        subst h
        simp only [List.length_drop]
        omega
      · have := ih t h
        simp only [List.length_cons]
        omega

/-- Case-insensitive (ASCII) prefix test, for the `re.IGNORECASE` literals. -/
def ciPrefixOf : List Char → List Char → Bool
  | [], _ => true
  | _ :: _, [] => false
  | p :: ps, c :: cs => lowerAscii p == lowerAscii c && ciPrefixOf ps cs

theorem ciPrefixOf_length : ∀ p s, ciPrefixOf p s = true → p.length ≤ s.length := by
  intro p
  induction p with
  | nil => intro s _; simp
  | cons a ps ih =>
      intro s h
      cases s with
      | nil => simp [ciPrefixOf] at h
      | cons c cs =>
          simp only [ciPrefixOf, Bool.and_eq_true] at h
          have := ih cs h.2
          simp only [List.length_cons]
          omega

/-- Scan for the first case-insensitive occurrence of `pat`; return the
suffix that follows it. -/
def dropAfterCI (pat : List Char) : List Char → Option (List Char)
  | [] => none
  | c :: rest =>
      if ciPrefixOf pat (c :: rest) then some ((c :: rest).drop pat.length)
      else dropAfterCI pat rest

theorem dropAfterCI_length (pat : List Char) (hp : pat ≠ []) :
    ∀ s t, dropAfterCI pat s = some t → t.length < s.length := by
  intro s
  induction s with
  | nil => intro t h; simp [dropAfterCI] at h
  | cons c rest ih =>
      intro t h
      rw [dropAfterCI] at h
      split at h
      · rename_i hpre
        have hlen : pat.length ≤ (c :: rest).length := ciPrefixOf_length _ _ hpre
        have h0 : 0 < pat.length := List.length_pos.mpr hp
        simp only [Option.some.injEq] at h
        subst h
        simp only [List.length_drop]
        omega
      · have := ih t h
        simp only [List.length_cons]
        omega

/-- Split at the first `'>'`: the characters before it and the suffix
after it. -/
def splitAtGt : List Char → Option (List Char × List Char)
  | [] => none
  | c :: rest =>
      if c = '>' then some ([], rest)
      else (splitAtGt rest).map (fun p => (c :: p.1, p.2))

theorem splitAtGt_length :
    ∀ s b a, splitAtGt s = some (b, a) → a.length < s.length := by
  intro s
  induction s with
  | nil => intro b a h; simp [splitAtGt] at h
  | cons c rest ih =>
      intro b a h
      rw [splitAtGt] at h
      split at h
      · simp only [Option.some.injEq, Prod.mk.injEq] at h
        rw [← h.2]
        simp
      · simp only [Option.map_eq_some'] at h
        rcases h with ⟨⟨b', a'⟩, hb, he⟩
        have hlen := ih b' a' hb
        have h2 : a' = a := congrArg Prod.snd he
        rw [h2] at hlen
        simp only [List.length_cons]
        omega

section Scan

variable {β : Type}

/-- Generic left-to-right substitution scan with explicit fuel.  At each
position the `step` function either consumes a match (returning the emitted
replacement and the remaining suffix) or emits the current character. -/
def scanGo (step : Char → List Char → List β × List Char) :
    Nat → List Char → List β
  | 0, _ => []
  | _ + 1, [] => []
  | n + 1, c :: rest => (step c rest).1 ++ scanGo step n (step c rest).2

/-- A substitution scan, with fuel instantiated to the input length. -/
def scan (step : Char → List Char → List β × List Char) (l : List Char) :
    List β :=
  scanGo step l.length l

theorem scanGo_mono (step : Char → List Char → List β × List Char)
    (hstep : ∀ c rest, (step c rest).2.length ≤ rest.length) :
    ∀ n m l, l.length ≤ n → l.length ≤ m → scanGo step n l = scanGo step m l := by
  intro n
  induction n with
  | zero =>
      intro m l h1 _
      have hl : l = [] := List.eq_nil_of_length_eq_zero (Nat.le_zero.mp h1)
      subst hl
      cases m <;> simp [scanGo]
  | succ n ih =>
      intro m l h1 h2
      cases l with
      | nil => cases m <;> simp [scanGo]
      | cons c rest =>
          cases m with
          | zero => simp at h2
          | succ m =>
              simp only [scanGo]
              congr 1
              have hle := hstep c rest
              simp only [List.length_cons] at h1 h2
              exact ih m _ (by omega) (by omega)

theorem scan_nil (step : Char → List Char → List β × List Char) :
    scan step [] = [] := rfl

theorem scan_cons (step : Char → List Char → List β × List Char)
    (hstep : ∀ c rest, (step c rest).2.length ≤ rest.length)
    (c : Char) (rest : List Char) :
    scan step (c :: rest) = (step c rest).1 ++ scan step (step c rest).2 := by
  unfold scan
  simp only [List.length_cons, scanGo]
  congr 1
  exact scanGo_mono step hstep _ _ _ (le_trans (hstep c rest) (le_refl _)) le_rfl

/-- Induction principle following the structure of a substitution scan. -/
theorem scan_induction (step : Char → List Char → List β × List Char)
    (hstep : ∀ c rest, (step c rest).2.length ≤ rest.length)
    (P : List Char → List β → Prop)
    (hnil : P [] [])
    (hcons : ∀ c rest, P (step c rest).2 (scan step (step c rest).2) →
      P (c :: rest) ((step c rest).1 ++ scan step (step c rest).2)) :
    ∀ l, P l (scan step l) := by
  have key : ∀ n l, l.length ≤ n → P l (scan step l) := by
    intro n
    induction n with
    | zero =>
        intro l h
        have hl : l = [] := List.eq_nil_of_length_eq_zero (Nat.le_zero.mp h)
        subst hl
        exact hnil
    | succ n ih =>
        intro l h
        cases l with
        | nil => exact hnil
        | cons c rest =>
            rw [scan_cons step hstep]
            simp only [List.length_cons] at h
            exact hcons c rest (ih _ (le_trans (hstep c rest) (by omega)))
  intro l
  exact key l.length l le_rfl

end Scan

/-! ### The individual substitutions of `DatasetCleaner.clean_text`
(`clean_dataset.py`, lines 141–175), in source order. -/

/-- `clean_dataset.py` line 147, `unicodedata.normalize('NFKC', text)`.
Modelled from the spec: NFKC normalization is an external Unicode table
lookup (the `unicodedata` library) not present in this repository; it is
modelled as the identity, with which it agrees on ASCII text (all concrete
inputs used here), and which preserves the property claimed of it
(idempotence). -/
def nfkc (l : List Char) : List Char := l

/-- Line 150: characters kept by the broken-artifact filter
`re.sub(r'[^\x00-\x7F -￿]', '', text)`. -/
def keptChar (c : Char) : Bool :=
  c.toNat ≤ 0x7F || (0xA0 ≤ c.toNat && c.toNat ≤ 0xFFFF)

def stripNonKept (l : List Char) : List Char := l.filter keptChar

/-- Step of `re.sub(r'\s+', ' ', text)` (line 153): a maximal whitespace run
becomes one space. -/
def stepWs (c : Char) (rest : List Char) : List Char × List Char :=
  if isPySpace c then ([' '], rest.dropWhile isPySpace) else ([c], rest)

theorem stepWs_le (c : Char) (rest : List Char) :
    (stepWs c rest).2.length ≤ rest.length := by
  unfold stepWs
  split <;> simp [(List.dropWhile_sublist _).length_le]

def collapseWs (l : List Char) : List Char := scan stepWs l

/-- The effect of `re.sub(r'\n\s*\n\s*\n', '\n\n', text)` on one maximal
whitespace run: when the run contains at least three newlines, the leftmost
match stretches from the first to the last newline of the run and is
replaced by two newlines; otherwise the run is unchanged (a match cannot
cross a non-whitespace character). -/
def blankRun (run : List Char) : List Char :=
  if 3 ≤ run.count '\n' then
    run.takeWhile (· ≠ '\n') ++ '\n' :: '\n' ::
      ((run.reverse.takeWhile (· ≠ '\n')).reverse)
  else run

/-- Step of `re.sub(r'\n\s*\n\s*\n', '\n\n', text)` (line 154). -/
def stepBlank (c : Char) (rest : List Char) : List Char × List Char :=
  if isPySpace c then
    (blankRun (c :: rest.takeWhile isPySpace), rest.dropWhile isPySpace)
  else ([c], rest)

theorem stepBlank_le (c : Char) (rest : List Char) :
    (stepBlank c rest).2.length ≤ rest.length := by
  unfold stepBlank
  split <;> simp [(List.dropWhile_sublist _).length_le]

def collapseBlank (l : List Char) : List Char := scan stepBlank l

/-- Step of `re.sub(r'<!--.*?-->', '', text, flags=re.DOTALL)` (line 157):
each `<!--` is removed with everything up to the nearest following `-->`;
when the first `<!--` has no later `-->` there is no match anywhere after
it, so the remaining text is emitted unchanged. -/
def stepComments (c : Char) (rest : List Char) : List Char × List Char :=
  if c = '<' && "!--".toList.isPrefixOf rest then
    match dropAfter "-->".toList (rest.drop 3) with
    | some t => ([], t)
    | none => (c :: rest, [])
  else ([c], rest)

theorem stepComments_le (c : Char) (rest : List Char) :
    (stepComments c rest).2.length ≤ rest.length := by
  unfold stepComments
  split
  · split
    · rename_i t heq
      have h1 := dropAfter_length "-->".toList (by decide) _ t heq
      have h2 : (rest.drop 3).length ≤ rest.length := by
        simp only [List.length_drop]; omega
      simp only
      omega
    · simp
  · simp

def stripComments (l : List Char) : List Char := scan stepComments l

/-- Step of `re.sub(r'<script.*?</script>', '', text,
flags=re.DOTALL | re.IGNORECASE)` (line 158). -/
def stepScript (c : Char) (rest : List Char) : List Char × List Char :=
  if ciPrefixOf "<script".toList (c :: rest) then
    match dropAfterCI "</script>".toList (rest.drop 6) with
    | some t => ([], t)
    | none => (c :: rest, [])
  else ([c], rest)

theorem stepScript_le (c : Char) (rest : List Char) :
    (stepScript c rest).2.length ≤ rest.length := by
  unfold stepScript
  split
  · split
    · rename_i t heq
      have h1 := dropAfterCI_length "</script>".toList (by decide) _ t heq
      have h2 : (rest.drop 6).length ≤ rest.length := by
        simp only [List.length_drop]; omega
      simp only
      omega
    · simp
  · simp

def stripScript (l : List Char) : List Char := scan stepScript l

/-- Step of `re.sub(r'<style.*?</style>', '', text,
flags=re.DOTALL | re.IGNORECASE)` (line 159). -/
def stepStyle (c : Char) (rest : List Char) : List Char × List Char :=
  if ciPrefixOf "<style".toList (c :: rest) then
    match dropAfterCI "</style>".toList (rest.drop 5) with
    | some t => ([], t)
    | none => (c :: rest, [])
  else ([c], rest)

theorem stepStyle_le (c : Char) (rest : List Char) :
    (stepStyle c rest).2.length ≤ rest.length := by
  unfold stepStyle
  split
  · split
    · rename_i t heq
      have h1 := dropAfterCI_length "</style>".toList (by decide) _ t heq
      have h2 : (rest.drop 5).length ≤ rest.length := by
        simp only [List.length_drop]; omega
      simp only
      omega
    · simp
  · simp

def stripStyle (l : List Char) : List Char := scan stepStyle l

/-- Step of `re.sub(r'<[^>]+>', '', text)` (line 162): a `'<'` with at
least one non-`'>'` character before the next `'>'` is removed with that
stretch; `"<>"` does not match; a `'<'` with no `'>'` after it leaves the
rest unchanged. -/
def stepTags (c : Char) (rest : List Char) : List Char × List Char :=
  if c = '<' then
    match splitAtGt rest with
    | some (between, after) =>
        if between = [] then ([c], rest) else ([], after)
    | none => (c :: rest, [])
  else ([c], rest)

theorem stepTags_le (c : Char) (rest : List Char) :
    (stepTags c rest).2.length ≤ rest.length := by
  unfold stepTags
  split
  · split
    · rename_i between after heq
      split
      · simp
      · have := splitAtGt_length rest between after heq
        simp only
        omega
    · simp
  · simp

def stripTags (l : List Char) : List Char := scan stepTags l

/-- Step of `re.sub(r'https?://[^\s]+', '[URL]', text)` (line 165): the
match starts at the literal and the greedy `[^\s]+` extends it to the end
of the non-whitespace run; with nothing non-whitespace after `://` there is
no match at this position. -/
def stepUrls (c : Char) (rest : List Char) : List Char × List Char :=
  if "https://".toList.isPrefixOf (c :: rest) then
    if ((c :: rest).drop 8).takeWhile (fun d => !isPySpace d) = [] then
      ([c], rest)
    else ("[URL]".toList, ((c :: rest).drop 8).dropWhile (fun d => !isPySpace d))
  else if "http://".toList.isPrefixOf (c :: rest) then
    if ((c :: rest).drop 7).takeWhile (fun d => !isPySpace d) = [] then
      ([c], rest)
    else ("[URL]".toList, ((c :: rest).drop 7).dropWhile (fun d => !isPySpace d))
  else ([c], rest)

theorem stepUrls_le (c : Char) (rest : List Char) :
    (stepUrls c rest).2.length ≤ rest.length := by
  unfold stepUrls
  have h8 : (((c :: rest).drop 8).dropWhile (fun d => !isPySpace d)).length ≤
      ((c :: rest).drop 8).length := (List.dropWhile_sublist _).length_le
  have h7 : (((c :: rest).drop 7).dropWhile (fun d => !isPySpace d)).length ≤
      ((c :: rest).drop 7).length := (List.dropWhile_sublist _).length_le
  simp only [List.length_drop, List.length_cons] at h8 h7
  split
  · split
    · simp
    · simp only
      omega
  · split
    · split
      · simp
      · simp only
        omega
    · simp

def subUrls (l : List Char) : List Char := scan stepUrls l

/-- Whether a maximal non-whitespace token matches `\S+@\S+\.\S+`: some
`'@'` at index `a ≥ 1` and some `'.'` at index `b` with `a + 2 ≤ b` and
`b + 2 ≤ |t|`.  A matching token is replaced in full: leftmost search makes
the match start at the token start, and the final greedy `\S+` extends it
to the token end. -/
def emailTok (t : List Char) : Bool :=
  (List.range t.length).any fun a =>
    decide (1 ≤ a) && (t.getD a ' ' == '@') &&
      ((List.range t.length).any fun b =>
        decide (a + 2 ≤ b) && decide (b + 2 ≤ t.length) &&
          (t.getD b ' ' == '.'))

/-- Step of `re.sub(r'\S+@\S+\.\S+', '[EMAIL]', text)` (line 168), acting
on maximal non-whitespace tokens. -/
def stepEmails (c : Char) (rest : List Char) : List Char × List Char :=
  if isPySpace c then ([c], rest)
  else
    ((if emailTok (c :: rest.takeWhile (fun d => !isPySpace d)) then
        "[EMAIL]".toList
      else c :: rest.takeWhile (fun d => !isPySpace d)),
     rest.dropWhile (fun d => !isPySpace d))

theorem stepEmails_le (c : Char) (rest : List Char) :
    (stepEmails c rest).2.length ≤ rest.length := by
  unfold stepEmails
  split <;> simp [(List.dropWhile_sublist _).length_le]

def subEmails (l : List Char) : List Char := scan stepEmails l

/-- Step of the excessive-punctuation substitutions (lines 171–173): a
maximal run of `ch` of length at least `thresh` is replaced by `keep`
copies of `ch`. -/
def stepPunct (ch : Char) (thresh keep : Nat) (c : Char) (rest : List Char) :
    List Char × List Char :=
  if c = ch then
    ((if thresh ≤ (c :: rest.takeWhile (· = ch)).length then
        List.replicate keep ch
      else c :: rest.takeWhile (· = ch)),
     rest.dropWhile (· = ch))
  else ([c], rest)

theorem stepPunct_le (ch : Char) (thresh keep : Nat) (c : Char)
    (rest : List Char) : (stepPunct ch thresh keep c rest).2.length ≤ rest.length := by
  unfold stepPunct
  split <;> simp [(List.dropWhile_sublist _).length_le]

def collapsePunct (ch : Char) (thresh keep : Nat) (l : List Char) : List Char :=
  scan (stepPunct ch thresh keep) l

/-- `str.strip()` (line 175). -/
def pyStrip (l : List Char) : List Char :=
  ((l.dropWhile isPySpace).reverse.dropWhile isPySpace).reverse

/-- `DatasetCleaner.clean_text` (lines 141–175): the full normalization
pipeline, applying the substitutions in source order. -/
def cleanText (t : List Char) : List Char :=
  if t = [] then []
  else
    pyStrip (collapsePunct '?' 2 1 (collapsePunct '!' 2 1 (collapsePunct '.' 3 3
      (subEmails (subUrls (stripTags (stripStyle (stripScript (stripComments
        (collapseBlank (collapseWs (stripNonKept (nfkc t)))))))))))))

/-! ### A small regex matcher

The patterns of `DatasetCleaner` use only literals, character classes,
`\s+`, `\w+`/`\w*`, `[0-9]+`, `.*?`, and a trailing optional character, so
they compile to token lists.  `re.search` only asks for the existence of a
match, which is unaffected by greediness, so the matcher below decides
existence by trying the alternatives. -/

inductive Tok where
  | tch : Char → Tok
  | cls : (Char → Bool) → Tok
  | star : (Char → Bool) → Tok
  | plus : (Char → Bool) → Tok
  | opt : Char → Tok

/-- Fueled matcher: does the token list match a prefix of the string? -/
def matchGo : Nat → List Tok → List Char → Bool
  | 0, ps, _ => ps.isEmpty
  | _ + 1, [], _ => true
  | n + 1, Tok.tch a :: ps, s =>
      match s with
      | [] => false
      | c :: r => a == c && matchGo n ps r
  | n + 1, Tok.cls p :: ps, s =>
      match s with
      | [] => false
      | c :: r => p c && matchGo n ps r
  | n + 1, Tok.opt a :: ps, s =>
      matchGo n ps s ||
        (match s with
         | [] => false
         | c :: r => a == c && matchGo n ps r)
  | n + 1, Tok.star p :: ps, s =>
      matchGo n ps s ||
        (match s with
         | [] => false
         | c :: r => p c && matchGo n (Tok.star p :: ps) r)
  | n + 1, Tok.plus p :: ps, s =>
      match s with
      | [] => false
      | c :: r => p c && matchGo n (Tok.star p :: ps) r

theorem matchGo_mono :
    ∀ n m ps s, ps.length + s.length ≤ n → ps.length + s.length ≤ m →
      matchGo n ps s = matchGo m ps s := by
  intro n
  induction n with
  | zero =>
      intro m ps s h1 _
      have hps : ps = [] := by
        cases ps with
        | nil => rfl
        | cons t ts => simp [List.length_cons] at h1
      subst hps
      cases m <;> simp [matchGo]
  | succ n ih =>
      intro m ps s h1 h2
      cases ps with
      | nil => cases m <;> simp [matchGo]
      | cons t ps =>
          cases m with
          | zero => simp [List.length_cons] at h2
          | succ m =>
              simp only [List.length_cons] at h1 h2
              cases t with
              | tch a =>
                  cases s with
                  | nil => simp [matchGo]
                  | cons c r =>
                      simp only [matchGo]
                      rw [ih m ps r (by simp at h1 ⊢; omega)
                        (by simp at h2 ⊢; omega)]
              | cls p =>
                  cases s with
                  | nil => simp [matchGo]
                  | cons c r =>
                      simp only [matchGo]
                      rw [ih m ps r (by simp at h1 ⊢; omega)
                        (by simp at h2 ⊢; omega)]
              | opt a =>
                  cases s with
                  | nil =>
                      simp only [matchGo]
                      rw [ih m ps [] (by simp at h1 ⊢; omega)
                        (by simp at h2 ⊢; omega)]
                  | cons c r =>
                      simp only [matchGo]
                      rw [ih m ps (c :: r) (by simp at h1 ⊢; omega)
                        (by simp at h2 ⊢; omega),
                        ih m ps r (by simp at h1 ⊢; omega)
                        (by simp at h2 ⊢; omega)]
              | star p =>
                  cases s with
                  | nil =>
                      simp only [matchGo]
                      rw [ih m ps [] (by simp at h1 ⊢; omega)
                        (by simp at h2 ⊢; omega)]
                  | cons c r =>
                      simp only [matchGo]
                      rw [ih m ps (c :: r) (by simp at h1 ⊢; omega)
                        (by simp at h2 ⊢; omega),
                        ih m (Tok.star p :: ps) r (by simp at h1 ⊢; omega)
                        (by simp at h2 ⊢; omega)]
              | plus p =>
                  cases s with
                  | nil => simp [matchGo]
                  | cons c r =>
                      simp only [matchGo]
                      rw [ih m (Tok.star p :: ps) r (by simp at h1 ⊢; omega)
                        (by simp at h2 ⊢; omega)]

/-- Does the token list match a prefix of the string? -/
def matchToks (ps : List Tok) (s : List Char) : Bool :=
  matchGo (ps.length + s.length) ps s

/-- `re.search`: does the token list match starting at some position? -/
def searchToks (ps : List Tok) : List Char → Bool
  | [] => matchToks ps []
  | c :: r => matchToks ps (c :: r) || searchToks ps r

/-- Matches starting just after some newline (for `re.MULTILINE` `^`). -/
def searchAfterNl (ps : List Tok) : List Char → Bool
  | [] => false
  | c :: r => (c == '\n' && matchToks ps r) || searchAfterNl ps r

/-- Compile a regex literal to tokens. -/
def litToks (s : String) : List Tok := s.toList.map Tok.tch

/-- `\s+`. -/
def wsP : Tok := Tok.plus isPySpace

/-- `[0-9]+`. -/
def digitsP : Tok := Tok.plus isDigitC

/-- `\w+`. -/
def wordP : Tok := Tok.plus isWordC

/-! ### `DatasetCleaner`'s pattern sets and helper predicates -/

/-- `DatasetCleaner.spam_patterns` (lines 42–73), compiled in order. -/
def spamPatterns : List (List Tok) := [
  litToks "reddit.com",
  litToks "upvote",
  litToks "downvote",
  litToks "karma",
  [digitsP, wsP] ++ litToks "point" ++ [Tok.opt 's'],
  litToks "permalink",
  litToks "save" ++ [wsP] ++ litToks "comment",
  litToks "give" ++ [wsP] ++ litToks "award",
  litToks "share" ++ [wsP] ++ litToks "report",
  litToks "continue" ++ [wsP] ++ litToks "this" ++ [wsP] ++ litToks "thread",
  litToks "view" ++ [wsP] ++ litToks "discussions" ++ [wsP] ++ litToks "in",
  litToks "more" ++ [wsP] ++ litToks "replies",
  litToks "load" ++ [wsP] ++ litToks "more" ++ [wsP] ++ litToks "comments",
  litToks "sort" ++ [wsP] ++ litToks "by:",
  litToks "new" ++ [wsP] ++ litToks "comments",
  litToks "best" ++ [wsP] ++ litToks "comments",
  litToks "top" ++ [wsP] ++ litToks "comments",
  litToks "controversial",
  litToks "gilded",
  litToks "archived",
  litToks "locked",
  litToks "stickied",
  litToks "removed" ++ [wsP] ++ litToks "by" ++ [wsP] ++ litToks "moderator",
  litToks "deleted" ++ [wsP] ++ litToks "by" ++ [wsP] ++ litToks "user",
  litToks "account" ++ [wsP] ++ litToks "suspended",
  litToks "shadowbanned",
  [digitsP, wsP] ++ litToks "comment" ++ [wsP] ++ litToks "deleted",
  litToks "this" ++ [wsP] ++ litToks "comment" ++ [wsP] ++ litToks "has" ++
    [wsP] ++ litToks "been" ++ [wsP] ++ litToks "deleted",
  litToks "comment" ++ [wsP] ++ litToks "removed" ++ [wsP] ++ litToks "by" ++
    [wsP] ++ litToks "moderator",
  litToks "user" ++ [wsP] ++ litToks "deleted" ++ [wsP] ++ litToks "their" ++
    [wsP] ++ litToks "account"]

/-- `DatasetCleaner.contains_spam` (lines 177–185): search every spam
pattern in the lowercased text. -/
def containsSpam (l : List Char) : Bool :=
  spamPatterns.any (fun p => searchToks p (pyLower l))

/-- `DatasetCleaner.bad_file_patterns` (lines 76–90): all literals. -/
def badFilePatterns : List (List Tok) :=
  (["reddit", "comment", "discussion", "forum", "thread", "post",
    "blog/_posts", "issues", "pull", "changelog", "release", "news",
    "announce"] : List String).map litToks

/-- `DatasetCleaner.is_bad_file` (lines 187–195). -/
def isBadFile (path : List Char) : Bool :=
  badFilePatterns.any (fun p => searchToks p (pyLower path))

/-- One broken character of `DatasetCleaner.is_broken_encoding` (lines
129–136): beyond the Basic Multilingual Plane, the replacement character,
or a control character other than `\n\r\t`. -/
def isBrokenChar (c : Char) : Bool :=
  65535 < c.toNat || c == '�' ||
    (c.toNat < 32 && !(c == '\n' || c == '\r' || c == '\t'))

/-- `DatasetCleaner.is_broken_encoding` (lines 117–139).  The code compares
`broken / total` (float) with the float literal `0.1`; the exact comparison
`10 * broken > total` agrees with it at every realistic text length. -/
def isBrokenEncoding (l : List Char) : Bool :=
  if l.isEmpty then true
  else decide (l.length < 10 * l.countP isBrokenChar)

/-- `str.split()`: the maximal non-whitespace tokens (line 224). -/
def stepWords (c : Char) (rest : List Char) : List (List Char) × List Char :=
  if isPySpace c then ([], rest)
  else ([c :: rest.takeWhile (fun d => !isPySpace d)],
        rest.dropWhile (fun d => !isPySpace d))

theorem stepWords_le (c : Char) (rest : List Char) :
    (stepWords c rest).2.length ≤ rest.length := by
  unfold stepWords
  split <;> simp [(List.dropWhile_sublist _).length_le]

def pyWords (l : List Char) : List (List Char) := scan stepWords l

/-- Sum of the word lengths (`sum(len(word) for word in words)`, line 235). -/
def sumLens (ws : List (List Char)) : Nat := (ws.map List.length).sum

/-- Sentence-ending characters of `re.split(r'[.!?]+', ...)` (line 242). -/
def isSentP (c : Char) : Bool := c == '.' || c == '!' || c == '?'

/-- The maximal segments between `[.!?]+` runs. -/
def stepSegs (c : Char) (rest : List Char) : List (List Char) × List Char :=
  if isSentP c then ([], rest.dropWhile isSentP)
  else ([c :: rest.takeWhile (fun d => !isSentP d)],
        rest.dropWhile (fun d => !isSentP d))

theorem stepSegs_le (c : Char) (rest : List Char) :
    (stepSegs c rest).2.length ≤ rest.length := by
  unfold stepSegs
  split <;> simp [(List.dropWhile_sublist _).length_le]

/-- `re.split(r'[.!?]+', clean_content)` followed by
`[s.strip() for s in sentences if s.strip()]` (lines 242–243). -/
def sentencesOf (l : List Char) : List (List Char) :=
  ((scan stepSegs l).map pyStrip).filter (· ≠ [])

/-- `DatasetCleaner.high_quality_sources` (lines 93–107). -/
def hqSources : List (List Char) :=
  (["mdn_content", "owasp", "openai_cookbook", "langchain",
    "huggingface_course", "react_docs", "vue_docs", "nextjs_docs",
    "kubernetes_docs", "system_design_primer", "clean_code_javascript",
    "javascript_algorithms", "python_patterns"] : List String).map
    String.toList

/-- `DatasetCleaner`'s `tech_indicators` (lines 265–338), compiled in
order; the patterns are searched with `re.IGNORECASE`, modelled by
searching the lowercased literals in the lowercased text.  The source list
contains `deployment` twice and the duplicate is kept. -/
def techIndicators : List (List Tok) := [
  litToks "function" ++ [wsP, wordP],
  litToks "class" ++ [wsP, wordP],
  litToks "import" ++ [wsP, wordP],
  litToks "const" ++ [wsP, wordP],
  litToks "let" ++ [wsP, wordP],
  litToks "var" ++ [wsP, wordP],
  litToks "def" ++ [wsP, wordP],
  litToks "public" ++ [wsP] ++ litToks "class",
  litToks "private" ++ [wsP, wordP],
  litToks "algorithm",
  litToks "implementation",
  litToks "documentation",
  litToks "example",
  litToks "tutorial",
  litToks "guide",
  litToks "reference",
  litToks "api",
  litToks "method",
  litToks "parameter",
  litToks "return",
  litToks "exception",
  litToks "error",
  litToks "debugging",
  litToks "testing",
  litToks "deployment",
  litToks "configuration",
  litToks "performance",
  litToks "security",
  litToks "authentication",
  litToks "authorization",
  litToks "database",
  litToks "query",
  litToks "server",
  litToks "client",
  litToks "framework",
  litToks "library",
  litToks "package",
  litToks "module",
  litToks "component",
  litToks "service",
  litToks "middleware",
  litToks "router",
  litToks "controller",
  litToks "model",
  litToks "view",
  litToks "template",
  litToks "schema",
  litToks "validation",
  litToks "serialization",
  litToks "parsing",
  litToks "optimization",
  litToks "caching",
  litToks "logging",
  litToks "monitoring",
  litToks "metrics",
  litToks "pipeline",
  litToks "workflow",
  litToks "deployment",
  litToks "containerization",
  litToks "orchestration",
  litToks "microservices",
  litToks "architecture",
  litToks "design pattern",
  litToks "best practice",
  litToks "code review",
  litToks "version control",
  litToks "git",
  litToks "repository",
  litToks "branch",
  litToks "merge",
  litToks "commit",
  litToks "pull request"]

/-- Number of matched technical indicators (line 340). -/
def techCount (clean : List Char) : Nat :=
  (techIndicators.filter (fun p => searchToks p (pyLower clean))).length

/-- `re.search(r'#+\s+\w+', clean_content)` (line 344). -/
def hasHeaders (clean : List Char) : Bool :=
  searchToks [Tok.plus (fun c => c == '#'), wsP, wordP] clean

/-- The pattern of `` re.search(r'```\w*\n.*?\n```', ..., re.DOTALL) ``
(line 346). -/
def codeBlockPat : List Tok :=
  litToks "```" ++ [Tok.star isWordC, Tok.tch '\n',
    Tok.star (fun _ => true), Tok.tch '\n'] ++ litToks "```"

def hasCodeBlock (clean : List Char) : Bool := searchToks codeBlockPat clean

/-- `re.search(r'^\s*[\-\*\+]\s+', ..., re.MULTILINE)` (line 348): a match
anchored at the string start or just after a newline. -/
def hasLists (clean : List Char) : Bool :=
  matchToks [Tok.star isPySpace,
    Tok.cls (fun c => c == '-' || c == '*' || c == '+'), wsP] clean ||
  searchAfterNl [Tok.star isPySpace,
    Tok.cls (fun c => c == '-' || c == '*' || c == '+'), wsP] clean

example : containsSpam "Please UPVOTE this".toList = true := by decide
example : containsSpam "nothing wrong here".toList = false := by decide
example : containsSpam "got 12  points already".toList = true := by decide
example : isBadFile "docs/changelog.md".toList = true := by decide
example : isBadFile "guide.md".toList = false := by decide
example : techCount "use the api and the database".toList = 2 := by decide
example : hasHeaders "# Title".toList = true := by decide
example : hasLists "- item ".toList = true := by decide
example : hasCodeBlock "```py\ncode\n```".toList = true := by decide
example : hasCodeBlock "``` no newline ```".toList = false := by decide
example : pyWords "ab  cd e".toList = ["ab".toList, "cd".toList, "e".toList] := by
  decide
example : sentencesOf "One two. Three!".toList
    = ["One two".toList, "Three".toList] := by decide

example : cleanText "a  b".toList = "a b".toList := by decide
example : cleanText "a <b> c".toList = "a  c".toList := by decide
example : cleanText "a\n\n\n\nb".toList = "a b".toList := by decide
example : cleanText "see https://x.com now".toList = "see [URL] now".toList := by
  decide
example : cleanText "mail a@b.c ok".toList = "mail [EMAIL] ok".toList := by decide
example : cleanText "wait.... what!!".toList = "wait... what!".toList := by decide
example : cleanText "<!-- hidden -->text".toList = "text".toList := by decide
example : cleanText "x<script>a</script>y <style>b</style>z".toList
    = "xy z".toList := by decide

/-! ### Documents, scoring and the filter pipeline -/

/-- A raw input document (`doc` dicts in `clean_dataset.py`; `timestamp`
and `metadata` are passed through unchanged by the pipeline and are not
modelled). -/
structure RawDoc where
  source : List Char
  file_path : List Char
  content : List Char

/-- An accepted, cleaned document (`cleaned_doc`, lines 379–387).  The
quality score is stored in exact hundredths: a stored value `s` stands for
the float `s / 100` of the code (every constant of the scoring code —
0.02, 0.05, 0.1, 0.2, 0.3, 0.5 — is an exact multiple of 0.01, and the
float sums involved are computed exactly at these magnitudes). -/
structure CleanedDoc where
  source : List Char
  file_path : List Char
  content : List Char
  word_count : Nat
  quality_score : Nat
  deriving DecidableEq

/-- The additive part of the quality score (lines 250–349) in hundredths:
source bonus 0.3, length bonus 0.2 / 0.1, technical-indicator bonus
`min(tech_count * 0.02, 0.3)`, and structure bonuses 0.1 / 0.2 / 0.05. -/
def additiveScore (source clean : List Char) (wc : Nat) : Nat :=
  (if hqSources.contains source then 30 else 0) +
  (if 200 ≤ wc ∧ wc ≤ 5000 then 20
   else if 100 ≤ wc ∧ wc ≤ 10000 then 10 else 0) +
  min (techCount clean * 2) 30 +
  (if hasHeaders clean then 10 else 0) +
  (if hasCodeBlock clean then 20 else 0) +
  (if hasLists clean then 5 else 0)

/-- `DatasetCleaner.calculate_quality_score` (lines 197–355).  The average
word length and average sentence length comparisons are modelled by
cross-multiplication, which agrees with the float divisions of the code.
The `if words:` / `if sentences:` guards of the code become the
`0 < …` conjuncts. -/
def calculateQualityScore (doc : RawDoc) : Nat × List Char :=
  if doc.content = [] then (0, "empty_content".toList)
  else
    let clean := cleanText doc.content
    if clean = [] then (0, "empty_after_cleaning".toList)
    else if isBrokenEncoding clean then (0, "broken_encoding".toList)
    else if containsSpam clean then (0, "spam_content".toList)
    else if isBadFile doc.file_path then (0, "bad_file_path".toList)
    else
      let wc := (pyWords clean).length
      if wc < 50 then (0, "too_short".toList)
      else if 50000 < wc then (0, "too_long".toList)
      else if 0 < wc ∧ sumLens (pyWords clean) < 3 * wc then
        (0, "words_too_short".toList)
      else if 0 < wc ∧ 20 * wc < sumLens (pyWords clean) then
        (0, "words_too_long".toList)
      else if 0 < (sentencesOf clean).length ∧
          ((sentencesOf clean).map (fun s => (pyWords s).length)).sum <
            10 * (sentencesOf clean).length then
        (0, "sentences_too_short".toList)
      else
        let raw := additiveScore doc.source clean wc
        (if hqSources.contains doc.source ∧ raw < 50 then 50 else raw,
         "quality_passed".toList)

/-- `DatasetCleaner.stats` (lines 110–115): the reason histogram is a
`Counter`, modelled as a total function that is zero off its support. -/
structure Stats where
  total_input : Nat
  filtered_out : Nat
  quality_kept : Nat
  reasons : List Char → Nat

def initStats : Stats := ⟨0, 0, 0, fun _ => 0⟩

/-- `self.stats['reasons'][reason] += 1`. -/
def bump (f : List Char → Nat) (k : List Char) : List Char → Nat :=
  fun r => if r = k then f r + 1 else f r

/-- `DatasetCleaner.process_document` (lines 357–390): count the input,
score it, reject below the 0.5 threshold recording the reason, otherwise
re-clean the content and emit the cleaned document. -/
def processDocument (st : Stats) (doc : RawDoc) : Stats × Option CleanedDoc :=
  let st1 : Stats := { st with total_input := st.total_input + 1 }
  let sr := calculateQualityScore doc
  if sr.1 < 50 then
    ({ st1 with filtered_out := st1.filtered_out + 1,
                reasons := bump st1.reasons sr.2 }, none)
  else
    let clean := cleanText doc.content
    if clean = [] then
      ({ st1 with filtered_out := st1.filtered_out + 1,
                  reasons := bump st1.reasons "empty_after_cleaning".toList },
       none)
    else
      ({ st1 with quality_kept := st1.quality_kept + 1 },
       some ⟨doc.source, doc.file_path, clean, (pyWords clean).length, sr.1⟩)

/-- The record-processing loop of `DatasetCleaner.clean_dataset` (lines
415–432) on one split: a parsed record (`some doc`) is processed and
counted as processed; an unparsable record (`none`, the
`json.JSONDecodeError` case) is skipped with a warning and the loop
continues.  The result is the final stats, the emitted documents in order,
and the `processed` counter. -/
def cleanSplit (st : Stats) : List (Option RawDoc) → Stats × List CleanedDoc × Nat
  | [] => (st, [], 0)
  | none :: rest => cleanSplit st rest
  | some d :: rest =>
      let pr := processDocument st d
      let rec_ := cleanSplit pr.1 rest
      (rec_.1,
       (match pr.2 with
        | some c => c :: rec_.2.1
        | none => rec_.2.1),
       rec_.2.2 + 1)

/-- A 50-word document from the high-quality source `owasp` that passes
every hard rejection: its additive score is 0.3 (source bonus only), which
the high-quality floor raises to 0.5, so it is accepted. -/
def owaspDoc : RawDoc :=
  ⟨"owasp".toList, "guide.md".toList,
   (String.intercalate " " (List.replicate 50 "abc")).toList⟩

/-- A document rejected by the word-count minimum. -/
def tinyDoc : RawDoc := ⟨"x".toList, "a.md".toList, "only three words".toList⟩

example : (calculateQualityScore tinyDoc).2 = "too_short".toList := by decide
example : (calculateQualityScore tinyDoc).1 = 0 := by decide
example : calculateQualityScore ⟨[], [], []⟩ = (0, "empty_content".toList) := by
  decide
example : (processDocument initStats tinyDoc).2.isSome = false := by decide
example : (processDocument initStats tinyDoc).1.reasons "too_short".toList
    = 1 := by decide

/-! ### Character-level helper lemmas -/

theorem toNat_ofNat_valid (n : Nat) (h : n < 0xD800) : (Char.ofNat n).toNat = n := by
  unfold Char.ofNat
  rw [dif_pos (Or.inl h)]
  simp only [Char.ofNatAux, Char.toNat, UInt32.toNat, UInt32.toBitVec]
  exact BitVec.toNat_ofNatLt _ _

theorem char_eq_iff_toNat {c d : Char} : c = d ↔ c.toNat = d.toNat := by
  constructor
  · intro h; rw [h]
  · intro h
    have h2 := congrArg Char.ofNat h
    rwa [Char.ofNat_toNat, Char.ofNat_toNat] at h2

theorem char_le_iff_toNat {c d : Char} : c ≤ d ↔ c.toNat ≤ d.toNat := by
  rw [Char.le_def, UInt32.le_def, BitVec.le_def]
  rfl

theorem toNat_lowerAscii (c : Char) :
    (lowerAscii c).toNat =
      if 65 ≤ c.toNat ∧ c.toNat ≤ 90 then c.toNat + 32 else c.toNat := by
  unfold lowerAscii
  have hA : ('A' ≤ c) ↔ 65 ≤ c.toNat := char_le_iff_toNat
  have hZ : (c ≤ 'Z') ↔ c.toNat ≤ 90 := char_le_iff_toNat
  by_cases h : 65 ≤ c.toNat ∧ c.toNat ≤ 90
  · rw [if_pos, if_pos h]
    · exact toNat_ofNat_valid _ (by omega)
    · simp only [Bool.and_eq_true, decide_eq_true_eq]
      exact ⟨hA.mpr h.1, hZ.mpr h.2⟩
  · rw [if_neg, if_neg h]
    simp only [Bool.and_eq_true, decide_eq_true_eq, not_and]
    intro h1 h2
    exact h ⟨hA.mp h1, hZ.mp h2⟩

/-! ### Generic membership and subset lemmas for the scans -/

/-- Characters of a character-producing scan come from the input or from
the step's replacement strings. -/
theorem scan_mem_char (step : Char → List Char → List Char × List Char)
    (hstep : ∀ c rest, (step c rest).2.length ≤ rest.length)
    (extra : List Char)
    (hemit : ∀ c rest x, x ∈ (step c rest).1 → x ∈ c :: rest ∨ x ∈ extra)
    (hsuf : ∀ c rest x, x ∈ (step c rest).2 → x ∈ c :: rest) :
    ∀ l x, x ∈ scan step l → x ∈ l ∨ x ∈ extra := by
  have key := scan_induction step hstep
    (fun m out => ∀ x, x ∈ out → x ∈ m ∨ x ∈ extra)
    (by intro x h; simp at h)
    (by
      intro c rest ih x hx
      rcases List.mem_append.mp hx with h1 | h1
      · exact hemit c rest x h1
      · rcases ih x h1 with h2 | h2
        · exact Or.inl (hsuf c rest x h2)
        · exact Or.inr h2)
  intro l x hx
  exact key l x hx

theorem dropAfter_mem (pat : List Char) :
    ∀ s t, dropAfter pat s = some t → ∀ x, x ∈ t → x ∈ s := by
  intro s
  induction s with
  | nil => intro t h; simp [dropAfter] at h
  | cons c rest ih =>
      intro t h x hx
      rw [dropAfter] at h
      split at h
      · simp only [Option.some.injEq] at h
        subst h
        exact (List.drop_subset _ _) hx
      · exact List.mem_cons_of_mem c (ih t h x hx)

theorem dropAfterCI_mem (pat : List Char) :
    ∀ s t, dropAfterCI pat s = some t → ∀ x, x ∈ t → x ∈ s := by
  intro s
  induction s with
  | nil => intro t h; simp [dropAfterCI] at h
  | cons c rest ih =>
      intro t h x hx
      rw [dropAfterCI] at h
      split at h
      · simp only [Option.some.injEq] at h
        subst h
        exact (List.drop_subset _ _) hx
      · exact List.mem_cons_of_mem c (ih t h x hx)

theorem splitAtGt_mem :
    ∀ s b a, splitAtGt s = some (b, a) → ∀ x, x ∈ a → x ∈ s := by
  intro s
  induction s with
  | nil => intro b a h; simp [splitAtGt] at h
  | cons c rest ih =>
      intro b a h x hx
      rw [splitAtGt] at h
      split at h
      · simp only [Option.some.injEq, Prod.mk.injEq] at h
        rw [← h.2] at hx
        exact List.mem_cons_of_mem c hx
      · simp only [Option.map_eq_some'] at h
        rcases h with ⟨⟨b', a'⟩, hb, he⟩
        have h2 : a' = a := congrArg Prod.snd he
        rw [h2] at hb
        exact List.mem_cons_of_mem c (ih b' a hb x hx)

theorem isPrefixOf_mem {pat s : List Char} (h : pat.isPrefixOf s) :
    ∀ x, x ∈ pat → x ∈ s := by
  intro x hx
  exact (List.isPrefixOf_iff_prefix.mp h).sublist.subset hx

/-! ### Character classes of normalized text -/

/-- A whitespace-normal character: not whitespace, or the plain space. -/
def spChar (c : Char) : Bool := !isPySpace c || c == ' '

theorem stepWs_emit_sp (c : Char) (rest : List Char) :
    ∀ x, x ∈ (stepWs c rest).1 → spChar x = true := by
  intro x hx
  unfold stepWs at hx
  split at hx
  · simp only [List.mem_singleton] at hx
    subst hx
    decide
  · rename_i h
    simp only [List.mem_singleton] at hx
    subst hx
    simp [spChar, h]

/-- Every character emitted by `collapseWs` is whitespace-normal: the
whitespace of the output consists of single plain spaces. -/
theorem collapseWs_sp : ∀ l c, c ∈ collapseWs l → spChar c = true := by
  have key := scan_induction stepWs stepWs_le
    (fun _ out => ∀ c, c ∈ out → spChar c = true)
    (by intro c h; simp at h)
    (by
      intro c rest ih x hx
      rcases List.mem_append.mp hx with h | h
      · exact stepWs_emit_sp c rest x h
      · exact ih x h)
  intro l c hc
  exact key l c hc

theorem sp_no_newline {l : List Char} (h : ∀ c, c ∈ l → spChar c = true) :
    '\n' ∉ l := by
  intro hmem
  have := h '\n' hmem
  simp [spChar, isPySpace] at this

/-! ### Identity lemmas: each substitution is the identity when its trigger
is absent -/

theorem head_dropWhile_false (p : Char → Bool) :
    ∀ (l : List Char) d, (l.dropWhile p).head? = some d → p d = false := by
  intro l
  induction l with
  | nil => intro d h; simp [List.dropWhile] at h
  | cons c rest ih =>
      intro d h
      rw [List.dropWhile_cons] at h
      split at h
      · exact ih d h
      · rename_i hp
        simp only [List.head?_cons, Option.some.injEq] at h
        subst h
        exact Bool.not_eq_true _ ▸ hp

theorem dropWhile_id_of_head (p : Char → Bool) (l : List Char)
    (h : ∀ d, l.head? = some d → p d = false) : l.dropWhile p = l := by
  cases l with
  | nil => rfl
  | cons c rest =>
      rw [List.dropWhile_cons_of_neg]
      simp [h c rfl]

/-- `collapseBlank` is the identity on newline-free text (every whitespace
run then contains no newline, so no blank-line match exists). -/
theorem collapseBlank_id (l : List Char) (h : '\n' ∉ l) :
    collapseBlank l = l := by
  have key := scan_induction stepBlank stepBlank_le
    (fun m out => '\n' ∉ m → out = m)
    (by intro _; rfl)
    (by
      intro c rest ih hm
      have hsuf : '\n' ∉ (stepBlank c rest).2 := by
        intro hx
        apply hm
        unfold stepBlank at hx
        split at hx
        · exact List.mem_cons_of_mem c ((List.dropWhile_sublist _).subset hx)
        · exact List.mem_cons_of_mem c hx
      rw [ih hsuf]
      unfold stepBlank
      split
      · rename_i hws
        have hcount : (c :: rest.takeWhile isPySpace).count '\n' = 0 := by
          rw [List.count_eq_zero]
          intro hmem
          apply hm
          rcases List.mem_cons.mp hmem with h1 | h1
          · rw [h1]; exact List.mem_cons_self _ _
          · exact List.mem_cons_of_mem c ((List.takeWhile_sublist _).subset h1)
        unfold blankRun
        rw [hcount, if_neg (by omega)]
        simp [List.takeWhile_append_dropWhile]
      · simp)
  exact key l h

theorem stripComments_id (l : List Char) (h : '<' ∉ l) :
    stripComments l = l := by
  have key := scan_induction stepComments stepComments_le
    (fun m out => '<' ∉ m → out = m)
    (by intro _; rfl)
    (by
      intro c rest ih hm
      have hc : ¬c = '<' := fun hc => hm (hc ▸ List.mem_cons_self _ _)
      have hstep : stepComments c rest = ([c], rest) := by
        unfold stepComments
        rw [if_neg (by simp [hc])]
      rw [hstep] at ih ⊢
      rw [ih (fun hx => hm (List.mem_cons_of_mem c hx))]
      rfl)
  exact key l h

theorem stripTags_id (l : List Char) (h : '<' ∉ l) :
    stripTags l = l := by
  have key := scan_induction stepTags stepTags_le
    (fun m out => '<' ∉ m → out = m)
    (by intro _; rfl)
    (by
      intro c rest ih hm
      have hc : ¬c = '<' := fun hc => hm (hc ▸ List.mem_cons_self _ _)
      have hstep : stepTags c rest = ([c], rest) := by
        unfold stepTags
        rw [if_neg hc]
      rw [hstep] at ih ⊢
      rw [ih (fun hx => hm (List.mem_cons_of_mem c hx))]
      rfl)
  exact key l h

theorem collapsePunct_id (ch : Char) (thresh keep : Nat) (l : List Char)
    (h : ch ∉ l) : collapsePunct ch thresh keep l = l := by
  have key := scan_induction (stepPunct ch thresh keep)
    (stepPunct_le ch thresh keep)
    (fun m out => ch ∉ m → out = m)
    (by intro _; rfl)
    (by
      intro c rest ih hm
      have hc : ¬c = ch := fun hc => hm (hc ▸ List.mem_cons_self _ _)
      have hstep : stepPunct ch thresh keep c rest = ([c], rest) := by
        unfold stepPunct
        rw [if_neg hc]
      rw [hstep] at ih ⊢
      rw [ih (fun hx => hm (List.mem_cons_of_mem c hx))]
      rfl)
  exact key l h

theorem stripComments_subset (l : List Char) :
    ∀ x, x ∈ stripComments l → x ∈ l := by
  intro x hx
  rcases scan_mem_char stepComments stepComments_le []
    (by
      intro c rest y hy
      unfold stepComments at hy
      split at hy
      · split at hy
        · simp at hy
        · exact Or.inl hy
      · simp only [List.mem_singleton] at hy
        exact Or.inl (hy ▸ List.mem_cons_self _ _))
    (by
      intro c rest y hy
      unfold stepComments at hy
      split at hy
      · split at hy
        · rename_i t heq
          exact List.mem_cons_of_mem c
            ((List.drop_subset _ _) (dropAfter_mem _ _ _ heq y hy))
        · simp at hy
      · exact List.mem_cons_of_mem c hy)
    l x hx with h | h
  · exact h
  · simp at h

theorem stripScript_subset (l : List Char) :
    ∀ x, x ∈ stripScript l → x ∈ l := by
  intro x hx
  rcases scan_mem_char stepScript stepScript_le []
    (by
      intro c rest y hy
      unfold stepScript at hy
      split at hy
      · split at hy
        · simp at hy
        · exact Or.inl hy
      · simp only [List.mem_singleton] at hy
        exact Or.inl (hy ▸ List.mem_cons_self _ _))
    (by
      intro c rest y hy
      unfold stepScript at hy
      split at hy
      · split at hy
        · rename_i t heq
          exact List.mem_cons_of_mem c
            ((List.drop_subset _ _) (dropAfterCI_mem _ _ _ heq y hy))
        · simp at hy
      · exact List.mem_cons_of_mem c hy)
    l x hx with h | h
  · exact h
  · simp at h

theorem stripStyle_subset (l : List Char) :
    ∀ x, x ∈ stripStyle l → x ∈ l := by
  intro x hx
  rcases scan_mem_char stepStyle stepStyle_le []
    (by
      intro c rest y hy
      unfold stepStyle at hy
      split at hy
      · split at hy
        · simp at hy
        · exact Or.inl hy
      · simp only [List.mem_singleton] at hy
        exact Or.inl (hy ▸ List.mem_cons_self _ _))
    (by
      intro c rest y hy
      unfold stepStyle at hy
      split at hy
      · split at hy
        · rename_i t heq
          exact List.mem_cons_of_mem c
            ((List.drop_subset _ _) (dropAfterCI_mem _ _ _ heq y hy))
        · simp at hy
      · exact List.mem_cons_of_mem c hy)
    l x hx with h | h
  · exact h
  · simp at h

theorem stripTags_subset (l : List Char) :
    ∀ x, x ∈ stripTags l → x ∈ l := by
  intro x hx
  rcases scan_mem_char stepTags stepTags_le []
    (by
      intro c rest y hy
      unfold stepTags at hy
      split at hy
      · split at hy
        · rename_i between after heq
          split at hy
          · simp only [List.mem_singleton] at hy
            exact Or.inl (hy ▸ List.mem_cons_self _ _)
          · simp at hy
        · exact Or.inl hy
      · simp only [List.mem_singleton] at hy
        exact Or.inl (hy ▸ List.mem_cons_self _ _))
    (by
      intro c rest y hy
      unfold stepTags at hy
      split at hy
      · split at hy
        · rename_i between after heq
          split at hy
          · exact List.mem_cons_of_mem c hy
          · exact List.mem_cons_of_mem c (splitAtGt_mem _ _ _ heq y hy)
        · simp at hy
      · exact List.mem_cons_of_mem c hy)
    l x hx with h | h
  · exact h
  · simp at h

theorem subUrls_subset (l : List Char) :
    ∀ x, x ∈ subUrls l → x ∈ l ∨ x ∈ "[URL]".toList := by
  intro x hx
  exact scan_mem_char stepUrls stepUrls_le ("[URL]".toList)
    (by
      intro c rest y hy
      unfold stepUrls at hy
      split at hy
      · split at hy
        · simp only [List.mem_singleton] at hy
          exact Or.inl (hy ▸ List.mem_cons_self _ _)
        · exact Or.inr hy
      · split at hy
        · split at hy
          · simp only [List.mem_singleton] at hy
            exact Or.inl (hy ▸ List.mem_cons_self _ _)
          · exact Or.inr hy
        · simp only [List.mem_singleton] at hy
          exact Or.inl (hy ▸ List.mem_cons_self _ _))
    (by
      intro c rest y hy
      unfold stepUrls at hy
      split at hy
      · split at hy
        · exact List.mem_cons_of_mem c hy
        · exact (List.drop_subset _ _) ((List.dropWhile_sublist _).subset hy)
      · split at hy
        · split at hy
          · exact List.mem_cons_of_mem c hy
          · exact (List.drop_subset _ _) ((List.dropWhile_sublist _).subset hy)
        · exact List.mem_cons_of_mem c hy)
    l x hx

theorem subEmails_subset (l : List Char) :
    ∀ x, x ∈ subEmails l → x ∈ l ∨ x ∈ "[EMAIL]".toList := by
  intro x hx
  exact scan_mem_char stepEmails stepEmails_le ("[EMAIL]".toList)
    (by
      intro c rest y hy
      unfold stepEmails at hy
      split at hy
      · simp only [List.mem_singleton] at hy
        exact Or.inl (hy ▸ List.mem_cons_self _ _)
      · split at hy
        · exact Or.inr hy
        · rcases List.mem_cons.mp hy with h2 | h2
          · exact Or.inl (h2 ▸ List.mem_cons_self _ _)
          · exact Or.inl
              (List.mem_cons_of_mem c ((List.takeWhile_sublist _).subset h2)))
    (by
      intro c rest y hy
      unfold stepEmails at hy
      split at hy
      · exact List.mem_cons_of_mem c hy
      · exact List.mem_cons_of_mem c ((List.dropWhile_sublist _).subset hy))
    l x hx

theorem collapsePunct_subset (ch : Char) (thresh keep : Nat) (l : List Char) :
    ∀ x, x ∈ collapsePunct ch thresh keep l → x ∈ l := by
  intro x hx
  rcases scan_mem_char (stepPunct ch thresh keep) (stepPunct_le ch thresh keep) []
    (by
      intro c rest y hy
      unfold stepPunct at hy
      split at hy
      · rename_i hc
        split at hy
        · have hych : y = ch := List.eq_of_mem_replicate hy
          exact Or.inl (hych ▸ hc ▸ List.mem_cons_self _ _)
        · rcases List.mem_cons.mp hy with h2 | h2
          · exact Or.inl (h2 ▸ List.mem_cons_self _ _)
          · exact Or.inl
              (List.mem_cons_of_mem c ((List.takeWhile_sublist _).subset h2))
      · simp only [List.mem_singleton] at hy
        exact Or.inl (hy ▸ List.mem_cons_self _ _))
    (by
      intro c rest y hy
      unfold stepPunct at hy
      split at hy
      · exact List.mem_cons_of_mem c ((List.dropWhile_sublist _).subset hy)
      · exact List.mem_cons_of_mem c hy)
    l x hx with h | h
  · exact h
  · simp at h

theorem pyStrip_subset (l : List Char) : ∀ x, x ∈ pyStrip l → x ∈ l := by
  intro x hx
  unfold pyStrip at hx
  rw [List.mem_reverse] at hx
  have h1 := (List.dropWhile_sublist (l := (l.dropWhile isPySpace).reverse)
    (p := isPySpace)).subset hx
  rw [List.mem_reverse] at h1
  exact (List.dropWhile_sublist _).subset h1

/-- With the `\s+ → ' '` collapse performed first, the text reaching the
blank-line rule contains no newline, so that rule is inert and the rest of
the pipeline applies to `collapseWs (stripNonKept x)`. -/
theorem cleanText_unfold (x : List Char) (hx : x ≠ []) :
    cleanText x =
      pyStrip (collapsePunct '?' 2 1 (collapsePunct '!' 2 1 (collapsePunct '.' 3 3
        (subEmails (subUrls (stripTags (stripStyle (stripScript (stripComments
          (collapseWs (stripNonKept x)))))))))))
     := by
  unfold cleanText
  rw [if_neg hx]
  rw [collapseBlank_id _ (sp_no_newline (fun c hc => collapseWs_sp _ c hc))]
  rfl

/-- Every character of normalized text is whitespace-normal: the only
whitespace `clean_text` can output is the single plain space. -/
theorem cleanText_sp : ∀ x c, c ∈ cleanText x → spChar c = true := by
  intro x c hc
  by_cases hx : x = []
  · subst hx
    simp [cleanText] at hc
  · rw [cleanText_unfold x hx] at hc
    have h1 := pyStrip_subset _ c hc
    have h2 := collapsePunct_subset _ _ _ _ c h1
    have h3 := collapsePunct_subset _ _ _ _ c h2
    have h4 := collapsePunct_subset _ _ _ _ c h3
    rcases subEmails_subset _ c h4 with h5 | h5
    · rcases subUrls_subset _ c h5 with h6 | h6
      · have h7 := stripTags_subset _ c h6
        have h8 := stripStyle_subset _ c h7
        have h9 := stripScript_subset _ c h8
        have h10 := stripComments_subset _ c h9
        exact collapseWs_sp _ c h10
      · fin_cases h6 <;> decide
    · fin_cases h5 <;> decide

/-- Normalized text contains no newline: `re.sub(r'\s+', ' ', …)` runs
before every other substitution and no later substitution reintroduces a
newline. -/
theorem cleanText_noNl (x : List Char) : '\n' ∉ cleanText x :=
  sp_no_newline (fun c hc => cleanText_sp x c hc)

/-! ### A successful match consumes every literal character of the
pattern -/

theorem matchGo_tch_mem :
    ∀ n ps s a, matchGo n ps s = true → Tok.tch a ∈ ps → a ∈ s := by
  intro n
  induction n with
  | zero =>
      intro ps s a h hmem
      cases ps with
      | nil => simp at hmem
      | cons t ts => simp [matchGo, List.isEmpty] at h
  | succ n ih =>
      intro ps s a h hmem
      cases ps with
      | nil => simp at hmem
      | cons t ps =>
          cases t with
          | tch b =>
              cases s with
              | nil => simp [matchGo] at h
              | cons c r =>
                  simp only [matchGo, Bool.and_eq_true, beq_iff_eq] at h
                  rcases List.mem_cons.mp hmem with h1 | h1
                  · have hab : a = b := by
                      injection h1
                    rw [hab, h.1]
                    exact List.mem_cons_self _ _
                  · exact List.mem_cons_of_mem c (ih ps r a h.2 h1)
          | cls p =>
              cases s with
              | nil => simp [matchGo] at h
              | cons c r =>
                  simp only [matchGo, Bool.and_eq_true] at h
                  rcases List.mem_cons.mp hmem with h1 | h1
                  · exact absurd h1 (by simp)
                  · exact List.mem_cons_of_mem c (ih ps r a h.2 h1)
          | opt b =>
              have h1 : Tok.tch a ∈ ps := by
                rcases List.mem_cons.mp hmem with h1 | h1
                · exact absurd h1 (by simp)
                · exact h1
              simp only [matchGo, Bool.or_eq_true] at h
              rcases h with h2 | h2
              · exact ih ps s a h2 h1
              · cases s with
                | nil => simp at h2
                | cons c r =>
                    simp only [Bool.and_eq_true] at h2
                    exact List.mem_cons_of_mem c (ih ps r a h2.2 h1)
          | star p =>
              have h1 : Tok.tch a ∈ ps := by
                rcases List.mem_cons.mp hmem with h1 | h1
                · exact absurd h1 (by simp)
                · exact h1
              simp only [matchGo, Bool.or_eq_true] at h
              rcases h with h2 | h2
              · exact ih ps s a h2 h1
              · cases s with
                | nil => simp at h2
                | cons c r =>
                    simp only [Bool.and_eq_true] at h2
                    exact List.mem_cons_of_mem c
                      (ih (Tok.star p :: ps) r a h2.2
                        (List.mem_cons_of_mem _ h1))
          | plus p =>
              have h1 : Tok.tch a ∈ ps := by
                rcases List.mem_cons.mp hmem with h1 | h1
                · exact absurd h1 (by simp)
                · exact h1
              cases s with
              | nil => simp [matchGo] at h
              | cons c r =>
                  simp only [matchGo, Bool.and_eq_true] at h
                  exact List.mem_cons_of_mem c
                    (ih (Tok.star p :: ps) r a h.2
                      (List.mem_cons_of_mem _ h1))

theorem matchToks_tch_mem {ps : List Tok} {s : List Char} {a : Char}
    (h : matchToks ps s = true) (hmem : Tok.tch a ∈ ps) : a ∈ s :=
  matchGo_tch_mem _ ps s a h hmem

theorem searchToks_tch_mem {ps : List Tok} {a : Char} (hmem : Tok.tch a ∈ ps) :
    ∀ s, searchToks ps s = true → a ∈ s := by
  intro s
  induction s with
  | nil =>
      intro h
      rw [searchToks] at h
      exact absurd (matchToks_tch_mem h hmem) (by simp)
  | cons c r ih =>
      intro h
      rw [searchToks, Bool.or_eq_true] at h
      rcases h with h1 | h1
      · exact matchToks_tch_mem h1 hmem
      · exact List.mem_cons_of_mem c (ih h1)

/-- The fenced-code-block pattern requires a newline, which normalized text
never contains, so the code-block bonus can never fire after cleaning. -/
theorem hasCodeBlock_cleanText (x : List Char) :
    hasCodeBlock (cleanText x) = false := by
  by_contra h
  rw [Bool.not_eq_false] at h
  exact cleanText_noNl x
    (searchToks_tch_mem (by simp [codeBlockPat, litToks]) _ h)

/-! ### The documented hard-rejection order -/

/-- The spec's hard-rejection conditions in the documented order, each
stated independently of the others (empty content, empty after cleaning,
broken encoding, spam, bad file path, word count below then above bounds,
average word length below then above bounds, average sentence length below
bound), paired with the reason each records. -/
def hardConds (doc : RawDoc) : List (Bool × List Char) :=
  [(decide (doc.content = []), "empty_content".toList),
   (decide (cleanText doc.content = []), "empty_after_cleaning".toList),
   (isBrokenEncoding (cleanText doc.content), "broken_encoding".toList),
   (containsSpam (cleanText doc.content), "spam_content".toList),
   (isBadFile doc.file_path, "bad_file_path".toList),
   (decide ((pyWords (cleanText doc.content)).length < 50),
    "too_short".toList),
   (decide (50000 < (pyWords (cleanText doc.content)).length),
    "too_long".toList),
   (decide (0 < (pyWords (cleanText doc.content)).length ∧
      sumLens (pyWords (cleanText doc.content)) <
        3 * (pyWords (cleanText doc.content)).length),
    "words_too_short".toList),
   (decide (0 < (pyWords (cleanText doc.content)).length ∧
      20 * (pyWords (cleanText doc.content)).length <
        sumLens (pyWords (cleanText doc.content))),
    "words_too_long".toList),
   (decide (0 < (sentencesOf (cleanText doc.content)).length ∧
      ((sentencesOf (cleanText doc.content)).map
        (fun s => (pyWords s).length)).sum <
        10 * (sentencesOf (cleanText doc.content)).length),
    "sentences_too_short".toList)]

/-- The first matching hard-rejection condition in the documented order. -/
def specFirstReason (doc : RawDoc) : Option (List Char) :=
  ((hardConds doc).find? (fun p => p.1)).map (fun p => p.2)

/-- The raw additive score the classifier computes before applying the
high-quality-source floor. -/
def rawScoreOf (doc : RawDoc) : Nat :=
  additiveScore doc.source (cleanText doc.content)
    ((pyWords (cleanText doc.content)).length)

/-- The classifier is exactly "first matching documented condition wins,
with score zero", and otherwise the floored additive score with the
`quality_passed` tag. -/
theorem quality_eq_first (doc : RawDoc) :
    calculateQualityScore doc =
      match specFirstReason doc with
      | some r => (0, r)
      | none =>
          (if hqSources.contains doc.source ∧ rawScoreOf doc < 50 then 50
           else rawScoreOf doc, "quality_passed".toList) := by
  unfold calculateQualityScore specFirstReason hardConds rawScoreOf
  by_cases h1 : doc.content = []
  · simp [h1, List.find?]
  · by_cases h2 : cleanText doc.content = []
    · simp [h1, h2, List.find?]
    · by_cases h3 : isBrokenEncoding (cleanText doc.content) = true
      · simp [h1, h2, h3, List.find?]
      · by_cases h4 : containsSpam (cleanText doc.content) = true
        · simp [h1, h2, h3, h4, List.find?]
        · by_cases h5 : isBadFile doc.file_path = true
          · simp [h1, h2, h3, h4, h5, List.find?]
          · by_cases h6 : (pyWords (cleanText doc.content)).length < 50
            · simp [h1, h2, h3, h4, h5, h6, List.find?]
            · by_cases h7 : 50000 < (pyWords (cleanText doc.content)).length
              · simp [h1, h2, h3, h4, h5, h6, h7, List.find?]
              · by_cases h8 : 0 < (pyWords (cleanText doc.content)).length ∧
                    sumLens (pyWords (cleanText doc.content)) <
                      3 * (pyWords (cleanText doc.content)).length
                · simp [h1, h2, h3, h4, h5, h6, h7, h8, List.find?]
                · by_cases h9 : 0 < (pyWords (cleanText doc.content)).length ∧
                      20 * (pyWords (cleanText doc.content)).length <
                        sumLens (pyWords (cleanText doc.content))
                  · have h8x : ¬(sumLens (pyWords (cleanText doc.content)) <
                        3 * (pyWords (cleanText doc.content)).length) :=
                      fun hh => h8 ⟨h9.1, hh⟩
                    simp [h1, h2, h3, h4, h5, h6, h7, h8x, h9, List.find?]
                  · by_cases h10 :
                        0 < (sentencesOf (cleanText doc.content)).length ∧
                        ((sentencesOf (cleanText doc.content)).map
                          (fun s => (pyWords s).length)).sum <
                          10 * (sentencesOf (cleanText doc.content)).length
                    · simp [h1, h2, h3, h4, h5, h6, h7, h8, h9, h10,
                        List.find?]
                    · simp [h1, h2, h3, h4, h5, h6, h7, h8, h9, h10,
                        List.find?]

theorem bump_same (f : List Char → Nat) (k : List Char) :
    bump f k k = f k + 1 := by
  simp [bump]

theorem bump_other (f : List Char → Nat) (k r : List Char) (h : r ≠ k) :
    bump f k r = f r := by
  simp [bump, h]

/-- Above the threshold the classifier passed every hard rejection. -/
theorem score_ge_imp (doc : RawDoc)
    (h : 50 ≤ (calculateQualityScore doc).1) :
    (calculateQualityScore doc).2 = "quality_passed".toList ∧
    cleanText doc.content ≠ [] := by
  have heq := quality_eq_first doc
  cases hsp : specFirstReason doc with
  | some r =>
      rw [hsp] at heq
      rw [heq] at h
      simp at h
  | none =>
      rw [hsp] at heq
      refine ⟨by rw [heq], ?_⟩
      intro hnil
      have h2 : specFirstReason doc = some ("empty_after_cleaning".toList) ∨
          specFirstReason doc = some ("empty_content".toList) := by
        unfold specFirstReason hardConds
        by_cases h1 : doc.content = []
        · right; simp [h1, List.find?]
        · left; simp [h1, hnil, List.find?]
      rcases h2 with h2 | h2 <;> rw [hsp] at h2 <;> exact Option.noConfusion h2

/-- A document whose classifier tag is some hard-rejection reason always
carries one of the ten documented reason strings. -/
theorem specFirst_reason_ne_passed (doc : RawDoc) (r : List Char)
    (h : specFirstReason doc = some r) : r ≠ "quality_passed".toList := by
  unfold specFirstReason at h
  rcases Option.map_eq_some'.mp h with ⟨p, hfind, hp2⟩
  have hmem := List.mem_of_find?_eq_some hfind
  subst hp2
  fin_cases hmem <;> (dsimp only; decide)

theorem specFirst_none_clean (doc : RawDoc)
    (h : specFirstReason doc = none) : cleanText doc.content ≠ [] := by
  intro hnil
  have h2 : (specFirstReason doc).isSome = true := by
    unfold specFirstReason hardConds
    by_cases h1 : doc.content = []
    · simp [h1, List.find?]
    · simp [h1, hnil, List.find?]
  rw [h] at h2
  simp at h2

/-- Unfolding of `process_document` on a below-threshold document. -/
theorem processDocument_rejected (st : Stats) (doc : RawDoc)
    (h : (calculateQualityScore doc).1 < 50) :
    processDocument st doc =
      ({ st with total_input := st.total_input + 1,
                 filtered_out := st.filtered_out + 1,
                 reasons := bump st.reasons (calculateQualityScore doc).2 },
       none) := by
  unfold processDocument
  simp only
  rw [if_pos h]

/-- Unfolding of `process_document` on an accepted document. -/
theorem processDocument_accepted (st : Stats) (doc : RawDoc)
    (h : ¬(calculateQualityScore doc).1 < 50)
    (h2 : cleanText doc.content ≠ []) :
    processDocument st doc =
      ({ st with total_input := st.total_input + 1,
                 quality_kept := st.quality_kept + 1 },
       some ⟨doc.source, doc.file_path, cleanText doc.content,
             (pyWords (cleanText doc.content)).length,
             (calculateQualityScore doc).1⟩) := by
  unfold processDocument
  simp only
  rw [if_neg h, if_neg h2]

/-- C1: classification evaluates the hard-rejection conditions in exactly
the documented order; the first matching condition wins, the score is
forced to 0, the pipeline then rejects the document and records exactly
that one reason; an accepted document records no reason. -/
theorem C1_hard_rejection_order (st : Stats) (doc : RawDoc) :
    (∀ r, specFirstReason doc = some r →
      calculateQualityScore doc = (0, r) ∧
      (processDocument st doc).2 = none ∧
      (processDocument st doc).1.reasons r = st.reasons r + 1 ∧
      ∀ r', r' ≠ r → (processDocument st doc).1.reasons r' = st.reasons r') ∧
    (specFirstReason doc = none →
      (calculateQualityScore doc).2 = "quality_passed".toList) ∧
    ((processDocument st doc).2.isSome = true →
      ∀ r', (processDocument st doc).1.reasons r' = st.reasons r') := by
  refine ⟨?_, ?_, ?_⟩
  · intro r hr
    have heq := quality_eq_first doc
    rw [hr] at heq
    have hscore : (calculateQualityScore doc).1 = 0 := by rw [heq]
    have hreason : (calculateQualityScore doc).2 = r := by rw [heq]
    have hp := processDocument_rejected st doc (by omega)
    refine ⟨heq, by rw [hp], ?_, ?_⟩
    · rw [hp]
      simp only
      rw [hreason]
      exact bump_same st.reasons r
    · intro r' hne
      rw [hp]
      simp only
      rw [hreason]
      exact bump_other st.reasons r r' hne
  · intro hnone
    have heq := quality_eq_first doc
    rw [hnone] at heq
    rw [heq]
  · intro hsome r'
    by_cases hlt : (calculateQualityScore doc).1 < 50
    · rw [processDocument_rejected st doc hlt] at hsome
      simp at hsome
    · have hge := score_ge_imp doc (by omega)
      rw [processDocument_accepted st doc hlt hge.2]

/-- Witness for C1 at a concrete document rejected as `too_short`. -/
theorem C1_hard_rejection_order_witness :
    specFirstReason tinyDoc = some ("too_short".toList) ∧
    calculateQualityScore tinyDoc = (0, "too_short".toList) ∧
    (processDocument initStats tinyDoc).2 = none ∧
    (processDocument initStats tinyDoc).1.reasons ("too_short".toList) = 1 := by
  have h := (C1_hard_rejection_order initStats tinyDoc).1 ("too_short".toList)
    (by decide)
  exact ⟨by decide, h.1, h.2.1, by rw [h.2.2.1]; rfl⟩

/-- C2: the pipeline returns a cleaned document exactly when the final
score reaches the 0.5 threshold (50 hundredths); every accepted document
carries that score and passed every hard rejection; a below-threshold
document is discarded. -/
theorem C2_accept_iff_threshold (st : Stats) (doc : RawDoc) :
    ((processDocument st doc).2.isSome = true ↔
      50 ≤ (calculateQualityScore doc).1) ∧
    (∀ c, (processDocument st doc).2 = some c →
      c.quality_score = (calculateQualityScore doc).1 ∧
      50 ≤ c.quality_score ∧ specFirstReason doc = none) ∧
    ((calculateQualityScore doc).1 < 50 → (processDocument st doc).2 = none) := by
  refine ⟨⟨?_, ?_⟩, ?_, ?_⟩
  · intro hs
    by_contra hlt
    rw [processDocument_rejected st doc (by omega)] at hs
    simp at hs
  · intro hge
    have him := score_ge_imp doc hge
    rw [processDocument_accepted st doc (by omega) him.2]
    rfl
  · intro c hc
    by_cases hlt : (calculateQualityScore doc).1 < 50
    · rw [processDocument_rejected st doc hlt] at hc
      simp at hc
    · have him := score_ge_imp doc (by omega)
      rw [processDocument_accepted st doc hlt him.2] at hc
      simp only [Option.some.injEq] at hc
      refine ⟨by rw [← hc], by rw [← hc]; simp; omega, ?_⟩
      cases hsp : specFirstReason doc with
      | none => rfl
      | some r =>
          have heq := quality_eq_first doc
          rw [hsp] at heq
          have : (calculateQualityScore doc).1 = 0 := by rw [heq]
          omega
  · intro hlt
    rw [processDocument_rejected st doc hlt]

/-- Witness for C2 at a concrete accepted document. -/
theorem C2_accept_iff_threshold_witness :
    (processDocument initStats owaspDoc).2.isSome = true ∧
    50 ≤ (calculateQualityScore owaspDoc).1 := by
  have h := (C2_accept_iff_threshold initStats owaspDoc).1
  have hs : 50 ≤ (calculateQualityScore owaspDoc).1 := by decide
  exact ⟨h.mpr hs, hs⟩

/-- Without the (unreachable) code-block bonus the additive score is at
most 0.95. -/
theorem additiveScore_le (source clean : List Char) (wc : Nat)
    (h : hasCodeBlock clean = false) :
    additiveScore source clean wc ≤ 95 := by
  unfold additiveScore
  set m := min (techCount clean * 2) 30 with hm
  have hmin : m ≤ 30 := Nat.min_le_right _ _
  split_ifs <;> first
    | omega
    | (exfalso; simp_all)

theorem score_le_100 (doc : RawDoc) : (calculateQualityScore doc).1 ≤ 100 := by
  have heq := quality_eq_first doc
  cases hsp : specFirstReason doc with
  | some r =>
      rw [hsp] at heq
      rw [heq]
      simp
  | none =>
      rw [hsp] at heq
      rw [heq]
      simp only
      split_ifs
      · omega
      · exact le_trans
          (additiveScore_le _ _ _ (hasCodeBlock_cleanText doc.content))
          (by omega)

/-- C3: the quality score of the classifier lies in `[0, 1]` (stored in
hundredths: in `[0, 100]`), hence every accepted document's score does so
as well — both in the hundredths representation and as the rational value
`score / 100` it denotes. -/
theorem C3_score_in_unit_interval (st : Stats) (doc : RawDoc) :
    (calculateQualityScore doc).1 ≤ 100 ∧
    (∀ c, (processDocument st doc).2 = some c →
      c.quality_score ≤ 100 ∧
      (0 : ℚ) ≤ (c.quality_score : ℚ) / 100 ∧
      (c.quality_score : ℚ) / 100 ≤ 1) := by
  refine ⟨score_le_100 doc, ?_⟩
  intro c hc
  by_cases hlt : (calculateQualityScore doc).1 < 50
  · rw [processDocument_rejected st doc hlt] at hc
    simp at hc
  · have him := score_ge_imp doc (by omega)
    rw [processDocument_accepted st doc hlt him.2] at hc
    simp only [Option.some.injEq] at hc
    have hle : c.quality_score ≤ 100 := by
      rw [← hc]
      exact score_le_100 doc
    refine ⟨hle, ?_, ?_⟩
    · positivity
    · rw [div_le_one (by norm_num : (0 : ℚ) < 100)]
      exact_mod_cast hle

/-- The cleaned document that `process_document` produces for `owaspDoc`. -/
def owaspCleaned : CleanedDoc :=
  ⟨"owasp".toList, "guide.md".toList, cleanText owaspDoc.content,
   (pyWords (cleanText owaspDoc.content)).length, 50⟩

/-- Witness for C3 at a concrete accepted document. -/
theorem C3_score_in_unit_interval_witness :
    (processDocument initStats owaspDoc).2 = some owaspCleaned ∧
    owaspCleaned.quality_score ≤ 100 ∧
    (0 : ℚ) ≤ (owaspCleaned.quality_score : ℚ) / 100 ∧
    (owaspCleaned.quality_score : ℚ) / 100 ≤ 1 := by
  have heq : (processDocument initStats owaspDoc).2 = some owaspCleaned := by
    decide
  have h := (C3_score_in_unit_interval initStats owaspDoc).2 owaspCleaned heq
  exact ⟨heq, h.1, h.2.1, h.2.2⟩

/-- In the `quality_passed` branch the final score is the floored additive
score. -/
theorem quality_passed_score (doc : RawDoc)
    (h : (calculateQualityScore doc).2 = "quality_passed".toList) :
    (calculateQualityScore doc).1 =
      (if hqSources.contains doc.source ∧ rawScoreOf doc < 50 then 50
       else rawScoreOf doc) ∧
    cleanText doc.content ≠ [] := by
  have heq := quality_eq_first doc
  cases hsp : specFirstReason doc with
  | some r =>
      rw [hsp] at heq
      rw [heq] at h
      exact absurd h (specFirst_reason_ne_passed doc r hsp)
  | none =>
      rw [hsp] at heq
      exact ⟨by rw [heq], specFirst_none_clean doc hsp⟩

/-- C4: for a document from the high-quality allow-list that passes every
hard rejection, a computed additive score below 0.5 is raised to exactly
0.5, and the document is accepted at the default threshold. -/
theorem C4_high_quality_floor (st : Stats) (doc : RawDoc)
    (h1 : hqSources.contains doc.source = true)
    (h2 : (calculateQualityScore doc).2 = "quality_passed".toList)
    (h3 : rawScoreOf doc < 50) :
    (calculateQualityScore doc).1 = 50 ∧
    (processDocument st doc).2.isSome = true := by
  have hq := quality_passed_score doc h2
  have hs : (calculateQualityScore doc).1 = 50 := by
    rw [hq.1, if_pos ⟨h1, h3⟩]
  refine ⟨hs, ?_⟩
  rw [processDocument_accepted st doc (by omega) hq.2]
  rfl

/-- Witness for C4: `owaspDoc` comes from `owasp` (in the allow-list), its
raw additive score is 0.3 < 0.5, and it is floored to exactly 0.5 and
accepted. -/
theorem C4_high_quality_floor_witness :
    (calculateQualityScore owaspDoc).1 = 50 ∧
    (processDocument initStats owaspDoc).2.isSome = true :=
  C4_high_quality_floor initStats owaspDoc (by decide) (by decide) (by decide)

theorem bump_le (f : List Char → Nat) (k r : List Char) :
    f r ≤ bump f k r := by
  unfold bump
  split <;> omega

/-- C10: every `process_document` call increments `total_input` by one and
exactly one of `quality_kept` / `filtered_out` by one, preserves the
balance `total_input = quality_kept + filtered_out`, increments exactly one
rejection-reason counter on rejection and none on acceptance, and never
decreases any counter. -/
theorem C10_stats_invariant (st : Stats) (doc : RawDoc) :
    (processDocument st doc).1.total_input = st.total_input + 1 ∧
    (((processDocument st doc).1.quality_kept = st.quality_kept + 1 ∧
      (processDocument st doc).1.filtered_out = st.filtered_out ∧
      (processDocument st doc).2.isSome = true) ∨
     ((processDocument st doc).1.filtered_out = st.filtered_out + 1 ∧
      (processDocument st doc).1.quality_kept = st.quality_kept ∧
      (processDocument st doc).2 = none)) ∧
    (st.total_input = st.quality_kept + st.filtered_out →
      (processDocument st doc).1.total_input =
        (processDocument st doc).1.quality_kept +
          (processDocument st doc).1.filtered_out) ∧
    ((processDocument st doc).2 = none →
      ∃ r, (processDocument st doc).1.reasons r = st.reasons r + 1 ∧
        ∀ r', r' ≠ r → (processDocument st doc).1.reasons r' = st.reasons r') ∧
    ((processDocument st doc).2.isSome = true →
      ∀ r, (processDocument st doc).1.reasons r = st.reasons r) ∧
    (st.quality_kept ≤ (processDocument st doc).1.quality_kept ∧
     st.filtered_out ≤ (processDocument st doc).1.filtered_out ∧
     ∀ r, st.reasons r ≤ (processDocument st doc).1.reasons r) := by
  by_cases hlt : (calculateQualityScore doc).1 < 50
  · rw [processDocument_rejected st doc hlt]
    refine ⟨rfl, Or.inr ⟨rfl, rfl, rfl⟩, by intro h; simp; omega, ?_, ?_, ?_⟩
    · intro _
      exact ⟨(calculateQualityScore doc).2, bump_same _ _,
        fun r' hne => bump_other _ _ _ hne⟩
    · intro h
      simp at h
    · exact ⟨le_rfl, by simp, fun r => bump_le _ _ r⟩
  · have him := score_ge_imp doc (by omega)
    rw [processDocument_accepted st doc hlt him.2]
    refine ⟨rfl, Or.inl ⟨rfl, rfl, rfl⟩, by intro h; simp; omega, ?_, ?_, ?_⟩
    · intro h
      simp at h
    · intro _ r
      rfl
    · exact ⟨by simp, le_rfl, fun r => le_rfl⟩

/-- Witness for C10 at a concrete call. -/
theorem C10_stats_invariant_witness :
    (processDocument initStats tinyDoc).1.total_input = 1 ∧
    (processDocument initStats tinyDoc).1.total_input =
      (processDocument initStats tinyDoc).1.quality_kept +
        (processDocument initStats tinyDoc).1.filtered_out := by
  have h := C10_stats_invariant initStats tinyDoc
  exact ⟨h.1, by rw [h.2.2.1 rfl]⟩

/-- C6: the blank-line rule of `clean_text` (line 154) is dead code — the
preceding `\s+ → ' '` substitution (line 153) has already removed every
newline, so a multi-line input with a run of blank lines is flattened to a
single line instead of retaining a blank line. -/
theorem C6_blank_lines_flattened :
    cleanText "a\n\n\n\nb".toList = "a b".toList ∧
    '\n' ∉ cleanText "a\n\n\n\nb".toList := by
  constructor
  · decide
  · exact cleanText_noNl _

/-! ### The rejection-reason vocabulary and the record loop -/

/-- Every reason string `calculate_quality_score` can return. -/
def reasonStrings : List (List Char) :=
  (["empty_content", "empty_after_cleaning", "broken_encoding",
    "spam_content", "bad_file_path", "too_short", "too_long",
    "words_too_short", "words_too_long", "sentences_too_short",
    "quality_passed"] : List String).map String.toList

theorem calc_reason_mem (doc : RawDoc) :
    (calculateQualityScore doc).2 ∈ reasonStrings := by
  have heq := quality_eq_first doc
  cases hsp : specFirstReason doc with
  | some r =>
      rw [hsp] at heq
      rw [heq]
      unfold specFirstReason at hsp
      rcases Option.map_eq_some'.mp hsp with ⟨p, hfind, hp2⟩
      have hmem := List.mem_of_find?_eq_some hfind
      subst hp2
      fin_cases hmem <;> (dsimp only; decide)
  | none =>
      rw [hsp] at heq
      rw [heq]
      dsimp only
      decide

/-- A counter for a string outside the reason vocabulary is never
touched by `process_document`. -/
theorem processDocument_reasons_stable (st : Stats) (doc : RawDoc)
    (r : List Char) (h : r ∉ reasonStrings) :
    (processDocument st doc).1.reasons r = st.reasons r := by
  by_cases hlt : (calculateQualityScore doc).1 < 50
  · rw [processDocument_rejected st doc hlt]
    exact bump_other _ _ _ (fun he => h (he ▸ calc_reason_mem doc))
  · have him := score_ge_imp doc (by omega)
    rw [processDocument_accepted st doc hlt him.2]

theorem cleanSplit_processed :
    ∀ (xs : List (Option RawDoc)) (st : Stats),
      (cleanSplit st xs).2.2 = (xs.filterMap id).length := by
  intro xs
  induction xs with
  | nil => intro st; rfl
  | cons x rest ih =>
      intro st
      cases x with
      | none =>
          show (cleanSplit st rest).2.2 = _
          rw [ih st]
          rfl
      | some d =>
          show (cleanSplit (processDocument st d).1 rest).2.2 + 1 = _
          rw [ih (processDocument st d).1]
          rfl

theorem cleanSplit_reasons_stable (r : List Char) (h : r ∉ reasonStrings) :
    ∀ (xs : List (Option RawDoc)) (st : Stats),
      (cleanSplit st xs).1.reasons r = st.reasons r := by
  intro xs
  induction xs with
  | nil => intro st; rfl
  | cons x rest ih =>
      intro st
      cases x with
      | none => exact ih st
      | some d =>
          show (cleanSplit (processDocument st d).1 rest).1.reasons r = _
          rw [ih (processDocument st d).1]
          exact processDocument_reasons_stable st d r h

/-- The input of the C8 scenario: one unparsable record among 100 valid
ones. -/
def c8Input : List (Option RawDoc) :=
  List.replicate 100 (some tinyDoc) ++ [none]

/-- C8 (amended): an unparsable record is skipped and the loop continues —
the processed count is exactly the number of parsable records, so 100 valid
records among one bad one yield 100 processed outcomes — but the bad record
is not counted anywhere: no `malformed_input` reason counter exists and the
reason histogram keeps no trace of it. -/
theorem C8_malformed_skipped_not_counted (st : Stats) :
    (∀ rest, cleanSplit st (none :: rest) = cleanSplit st rest) ∧
    (∀ xs, (cleanSplit st xs).2.2 = (xs.filterMap id).length) ∧
    (cleanSplit st c8Input).2.2 = 100 ∧
    (∀ xs, (cleanSplit st xs).1.reasons ("malformed_input".toList) =
      st.reasons ("malformed_input".toList)) := by
  refine ⟨fun rest => rfl, fun xs => cleanSplit_processed xs st, ?_, ?_⟩
  · rw [cleanSplit_processed c8Input st]
    decide
  · intro xs
    exact cleanSplit_reasons_stable _ (by decide) xs st

/-- Counterexample to C8 as stated: on one unparsable record among 100
valid ones the run yields 100 processed outcomes but counts nothing under
`malformed_input` — the claimed counter increment does not happen. -/
theorem C8_counterexample :
    (cleanSplit initStats c8Input).2.2 = 100 ∧
    (cleanSplit initStats c8Input).1.reasons ("malformed_input".toList) = 0 := by
  constructor
  · rw [cleanSplit_processed c8Input initStats]
    decide
  · rw [cleanSplit_reasons_stable _ (by decide) c8Input initStats]
    rfl

/-! ### Train/validation/test splits
(`ExpandedDataCollector.create_training_splits`, lines 443–477) -/

/-- `create_training_splits` after the shuffle: `train_size =
int(0.8 * total)`, `val_size = int(0.1 * total)` (the float computations
agree with the exact floors at corpus sizes), then the three slices
`[:train]`, `[train:train+val]`, `[train+val:]`. -/
def createTrainingSplits {α : Type} (docs : List α) :
    List α × List α × List α :=
  let total := docs.length
  let ts := total * 8 / 10
  let vs := total / 10
  (docs.take ts, (docs.drop ts).take vs, docs.drop (ts + vs))

/-- C7: the splits partition the document list — the three splits
concatenate back to the input (so every document lands in exactly one
split), the train split has `floor(0.8 * total)` documents, validation has
`floor(0.1 * total)`, test gets the remainder, and for 1000 documents the
sizes are exactly 800 / 100 / 100. -/
theorem C7_training_splits {α : Type} (docs : List α) :
    (createTrainingSplits docs).1 ++ (createTrainingSplits docs).2.1 ++
        (createTrainingSplits docs).2.2 = docs ∧
    (createTrainingSplits docs).1.length = docs.length * 8 / 10 ∧
    (createTrainingSplits docs).2.1.length = docs.length / 10 ∧
    (createTrainingSplits docs).2.2.length =
      docs.length - (docs.length * 8 / 10 + docs.length / 10) ∧
    (createTrainingSplits docs).1.length +
      (createTrainingSplits docs).2.1.length +
      (createTrainingSplits docs).2.2.length = docs.length ∧
    (docs.length = 1000 →
      (createTrainingSplits docs).1.length = 800 ∧
      (createTrainingSplits docs).2.1.length = 100 ∧
      (createTrainingSplits docs).2.2.length = 100) := by
  unfold createTrainingSplits
  simp only
  have hts : docs.length * 8 / 10 ≤ docs.length := by omega
  have hvs : docs.length / 10 ≤ docs.length - docs.length * 8 / 10 := by omega
  refine ⟨?_, ?_, ?_, ?_, ?_, ?_⟩
  · rw [List.append_assoc, ← List.drop_drop]
    rw [List.take_append_drop, List.take_append_drop]
  · simp only [List.length_take]
    omega
  · simp only [List.length_take, List.length_drop]
    omega
  · simp only [List.length_drop]
  · simp only [List.length_take, List.length_drop]
    omega
  · intro h
    refine ⟨?_, ?_, ?_⟩ <;> simp only [List.length_take, List.length_drop, h] <;>
      omega

/-- Witness for C7 at 1000 concrete documents. -/
theorem C7_training_splits_witness :
    (createTrainingSplits (List.range 1000)).1.length = 800 ∧
    (createTrainingSplits (List.range 1000)).2.1.length = 100 ∧
    (createTrainingSplits (List.range 1000)).2.2.length = 100 := by
  have h := (C7_training_splits (List.range 1000)).2.2.2.2.2 (by simp)
  exact h

/-! ### Corpus chunking
(`ExpandedDataCollector.create_corpus_chunks`, lines 393–441) -/

/-- A document as seen by the chunker.  Modelled from the spec: the JSON
serializer (`json.dumps(doc, ensure_ascii=False)` encoded as UTF-8) is an
external library; the chunker only ever uses the byte length of the
serialized document (`doc_size`), so that length is carried as the `bytes`
field, alongside the `word_count` key used for sorting. -/
structure ChunkDoc where
  word_count : Nat
  bytes : Nat
  deriving DecidableEq

/-- Stable descending insertion by `word_count` (equal keys keep their
original relative order, as Python's stable `list.sort(key=…,
reverse=True)` does). -/
def insertDesc (d : ChunkDoc) : List ChunkDoc → List ChunkDoc
  | [] => [d]
  | x :: xs =>
      if x.word_count ≤ d.word_count then d :: x :: xs
      else x :: insertDesc d xs

/-- `all_documents.sort(key=lambda x: x['word_count'], reverse=True)`
(line 411). -/
def sortDesc : List ChunkDoc → List ChunkDoc
  | [] => []
  | d :: ds => insertDesc d (sortDesc ds)

example : sortDesc [⟨5, 1⟩, ⟨5, 2⟩] = [⟨5, 1⟩, ⟨5, 2⟩] := by decide

example : sortDesc [⟨1, 10⟩, ⟨3, 30⟩, ⟨2, 20⟩, ⟨3, 31⟩] =
    [⟨3, 30⟩, ⟨3, 31⟩, ⟨2, 20⟩, ⟨1, 10⟩] := by decide

/-- The greedy packing loop of `create_corpus_chunks` (lines 413–441):
flush the current chunk when adding the next document would exceed the
budget and the chunk is non-empty, else append; finally flush the last
non-empty chunk. -/
def packLoop (budget : Nat) :
    List ChunkDoc → List ChunkDoc → Nat → List (List ChunkDoc)
  | [], cur, _ => if cur = [] then [] else [cur]
  | d :: rest, cur, size =>
      if budget < size + d.bytes ∧ cur ≠ [] then
        cur :: packLoop budget rest [d] d.bytes
      else
        packLoop budget rest (cur ++ [d]) (size + d.bytes)

/-- `ExpandedDataCollector.create_corpus_chunks` with its
`chunk_size_mb` parameter (default 50):
`chunk_size_bytes = chunk_size_mb * 1024 * 1024`. -/
def createCorpusChunks (mb : Nat) (docs : List ChunkDoc) :
    List (List ChunkDoc) :=
  packLoop (mb * 1024 * 1024) (sortDesc docs) [] 0

def sortedDescWc (l : List ChunkDoc) : Prop :=
  l.Pairwise (fun a b => b.word_count ≤ a.word_count)

theorem insertDesc_perm (d : ChunkDoc) :
    ∀ l, List.Perm (insertDesc d l) (d :: l) := by
  intro l
  induction l with
  | nil => rfl
  | cons x xs ih =>
      rw [insertDesc]
      split
      · rfl
      · exact (List.Perm.cons x ih).trans (List.Perm.swap d x xs)

theorem sortDesc_perm : ∀ l, List.Perm (sortDesc l) l := by
  intro l
  induction l with
  | nil => rfl
  | cons d ds ih =>
      rw [sortDesc]
      exact (insertDesc_perm d (sortDesc ds)).trans (ih.cons d)

theorem insertDesc_sorted (d : ChunkDoc) :
    ∀ l, sortedDescWc l → sortedDescWc (insertDesc d l) := by
  intro l
  induction l with
  | nil => intro _; simp [insertDesc, sortedDescWc]
  | cons x xs ih =>
      intro h
      unfold sortedDescWc at h ih ⊢
      rw [List.pairwise_cons] at h
      rw [insertDesc]
      split
      · rename_i hlt
        rw [List.pairwise_cons]
        refine ⟨?_, List.pairwise_cons.mpr h⟩
        intro b hb
        rcases List.mem_cons.mp hb with rfl | hb
        · omega
        · have := h.1 b hb
          omega
      · rename_i hge
        rw [List.pairwise_cons]
        refine ⟨?_, ih h.2⟩
        intro b hb
        have hb2 := (insertDesc_perm d xs).mem_iff.mp hb
        rcases List.mem_cons.mp hb2 with rfl | hb2
        · omega
        · exact h.1 b hb2

theorem sortDesc_sorted : ∀ l, sortedDescWc (sortDesc l) := by
  intro l
  induction l with
  | nil => simp [sortDesc, sortedDescWc]
  | cons d ds ih => exact insertDesc_sorted d (sortDesc ds) ih

theorem packLoop_join (budget : Nat) :
    ∀ l cur size, (packLoop budget l cur size).flatten = cur ++ l := by
  intro l
  induction l with
  | nil =>
      intro cur size
      rw [packLoop]
      split
      · rename_i h
        simp [h]
      · simp
  | cons d rest ih =>
      intro cur size
      rw [packLoop]
      split
      · simp [ih]
      · rw [ih]
        simp

theorem packLoop_no_empty (budget : Nat) :
    ∀ l cur size, [] ∉ packLoop budget l cur size := by
  intro l
  induction l with
  | nil =>
      intro cur size
      rw [packLoop]
      split
      · simp
      · rename_i h
        intro hmem
        rw [List.mem_singleton] at hmem
        exact h hmem.symm
  | cons d rest ih =>
      intro cur size
      rw [packLoop]
      split
      · rename_i h
        intro hmem
        rcases List.mem_cons.mp hmem with he | hmem2
        · exact h.2 he.symm
        · exact ih [d] d.bytes hmem2
      · exact ih (cur ++ [d]) (size + d.bytes)

theorem packLoop_bound (budget : Nat) :
    ∀ l cur size,
      (∀ d, d ∈ l → d.bytes ≤ budget) →
      size = (cur.map ChunkDoc.bytes).sum →
      size ≤ budget →
      ∀ c, c ∈ packLoop budget l cur size →
        (c.map ChunkDoc.bytes).sum ≤ budget := by
  intro l
  induction l with
  | nil =>
      intro cur size _ hsz hle c hc
      rw [packLoop] at hc
      split at hc
      · simp at hc
      · rw [List.mem_singleton] at hc
        subst hc
        omega
  | cons d rest ih =>
      intro cur size hall hsz hle c hc
      have hd : d.bytes ≤ budget := hall d (List.mem_cons_self _ _)
      have hrest : ∀ e, e ∈ rest → e.bytes ≤ budget :=
        fun e he => hall e (List.mem_cons_of_mem d he)
      rw [packLoop] at hc
      split at hc
      · rcases List.mem_cons.mp hc with he | hc2
        · subst he
          omega
        · exact ih [d] d.bytes hrest (by simp) hd c hc2
      · rename_i hneg
        rcases Decidable.not_and_iff_or_not.mp hneg with h1 | h1
        · exact ih (cur ++ [d]) (size + d.bytes) hrest
            (by simp [hsz]) (by omega) c hc
        · have hcur : cur = [] := Decidable.not_not.mp h1
          subst hcur
          have hsz0 : size = 0 := by simpa using hsz
          exact ih [d] (size + d.bytes) hrest (by simp [hsz0])
            (by omega) c hc

theorem insertDesc_filter (d : ChunkDoc) (k : Nat) :
    ∀ m, (insertDesc d m).filter (fun e => e.word_count == k) =
      if d.word_count = k
      then d :: m.filter (fun e => e.word_count == k)
      else m.filter (fun e => e.word_count == k) := by
  intro m
  induction m with
  | nil =>
      rw [insertDesc, List.filter_cons, List.filter_nil]
      by_cases hk : d.word_count = k
      · rw [if_pos hk, if_pos (by simp [hk])]
      · rw [if_neg hk, if_neg (by simp [hk])]
  | cons x xs ih =>
      rw [insertDesc]
      split
      · rw [List.filter_cons]
        by_cases hk : d.word_count = k
        · rw [if_pos hk, if_pos (by simp [hk])]
        · rw [if_neg hk, if_neg (by simp [hk])]
      · rename_i hgt
        rw [List.filter_cons, List.filter_cons, ih]
        by_cases hx : x.word_count = k
        · have hdk : ¬d.word_count = k := by omega
          simp [hx, hdk]
        · simp [hx]

/-- The sort is stable: for every key value, the documents carrying that
key come out in their original relative order (which, with the
permutation and sortedness facts, pins the output to what Python's
stable `list.sort` produces). -/
theorem sortDesc_stable :
    ∀ l (k : Nat), (sortDesc l).filter (fun e => e.word_count == k) =
      l.filter (fun e => e.word_count == k) := by
  intro l
  induction l with
  | nil => intro k; rfl
  | cons d ds ih =>
      intro k
      rw [sortDesc, insertDesc_filter, List.filter_cons, ih]
      by_cases hk : d.word_count = k
      · rw [if_pos hk, if_pos (by simp [hk])]
      · rw [if_neg hk, if_neg (by simp [hk])]

theorem packLoop_multi_bound (budget : Nat) :
    ∀ l cur size,
      size = (cur.map ChunkDoc.bytes).sum →
      (2 ≤ cur.length → size ≤ budget) →
      ∀ c, c ∈ packLoop budget l cur size → 2 ≤ c.length →
        (c.map ChunkDoc.bytes).sum ≤ budget := by
  intro l
  induction l with
  | nil =>
      intro cur size hsz hinv c hc hlen
      rw [packLoop] at hc
      split at hc
      · simp at hc
      · rw [List.mem_singleton] at hc
        subst hc
        rw [← hsz]
        exact hinv hlen
  | cons d rest ih =>
      intro cur size hsz hinv c hc hlen
      rw [packLoop] at hc
      split at hc
      · rcases List.mem_cons.mp hc with he | hc2
        · subst he
          rw [← hsz]
          exact hinv hlen
        · exact ih [d] d.bytes (by simp) (by simp) c hc2 hlen
      · rename_i hneg
        rcases Decidable.not_and_iff_or_not.mp hneg with h1 | h1
        · have hfit : size + d.bytes ≤ budget := by omega
          exact ih (cur ++ [d]) (size + d.bytes) (by simp [hsz])
            (fun _ => hfit) c hc hlen
        · have hcur : cur = [] := Decidable.not_not.mp h1
          subst hcur
          have hsz0 : size = 0 := by simpa using hsz
          exact ih [d] (size + d.bytes) (by simp [hsz0])
            (by simp) c hc hlen

/-- C9 (amended): chunking packs the stably descending-sorted documents —
the chunks concatenate to the sorted permutation of the input (every
document in exactly one chunk, larger word counts first, ties keeping
their original order), no chunk is empty, and every chunk holding two or
more documents is within the byte budget: the loop only ever appends a
further document when the running size stays within
`chunk_size_mb*1024*1024`.  (A single document larger than the budget
becomes its own over-budget chunk — the `and current_chunk` guard admits
it — so the unconditional bound of the original claim fails.) -/
theorem C9_chunking (mb : Nat) (docs : List ChunkDoc) :
    (createCorpusChunks mb docs).flatten = sortDesc docs ∧
    List.Perm (sortDesc docs) docs ∧
    sortedDescWc (sortDesc docs) ∧
    (∀ k : Nat, (sortDesc docs).filter (fun e => e.word_count == k) =
      docs.filter (fun e => e.word_count == k)) ∧
    [] ∉ createCorpusChunks mb docs ∧
    (∀ c, c ∈ createCorpusChunks mb docs → 2 ≤ c.length →
      (c.map ChunkDoc.bytes).sum ≤ mb * 1024 * 1024) := by
  refine ⟨?_, sortDesc_perm docs, sortDesc_sorted docs,
    sortDesc_stable docs, ?_, ?_⟩
  · rw [createCorpusChunks, packLoop_join]
    rfl
  · exact packLoop_no_empty _ _ _ _
  · exact packLoop_multi_bound _ _ _ _ rfl (by simp)

/-- Witness for C9 at a concrete corpus, including a word-count tie: the
two 3-word documents keep their input order, and the single chunk of
three documents is within the budget. -/
theorem C9_chunking_witness :
    (createCorpusChunks 50 [⟨3, 100⟩, ⟨3, 300⟩, ⟨2, 200⟩]).flatten =
      sortDesc [⟨3, 100⟩, ⟨3, 300⟩, ⟨2, 200⟩] ∧
    (∀ k : Nat, (sortDesc [⟨3, 100⟩, ⟨3, 300⟩, ⟨2, 200⟩]).filter
        (fun e => e.word_count == k) =
      [⟨3, 100⟩, ⟨3, 300⟩, ⟨2, 200⟩].filter (fun e => e.word_count == k)) ∧
    ∀ c, c ∈ createCorpusChunks 50 [⟨3, 100⟩, ⟨3, 300⟩, ⟨2, 200⟩] →
      2 ≤ c.length → (c.map ChunkDoc.bytes).sum ≤ 50 * 1024 * 1024 := by
  have h := C9_chunking 50 [⟨3, 100⟩, ⟨3, 300⟩, ⟨2, 200⟩]
  exact ⟨h.1, h.2.2.2.1, h.2.2.2.2.2⟩

/-- Counterexample to C9 as stated: with the default 50 MB budget, a
single document whose serialization is 52428801 bytes (one byte over
50 MB) is emitted as a chunk whose total size exceeds the configured
budget. -/
theorem C9_counterexample :
    createCorpusChunks 50 [⟨1, 52428801⟩] = [[⟨1, 52428801⟩]] ∧
    ∀ c, c ∈ createCorpusChunks 50 [⟨1, 52428801⟩] →
      50 * 1024 * 1024 < (c.map ChunkDoc.bytes).sum := by
  constructor
  · decide
  · decide

/-! ### Whitespace normal form, for the idempotence analysis of
`clean_text` -/

/-- No two adjacent whitespace characters. -/
def noAdjWs : List Char → Bool
  | [] => true
  | [_] => true
  | c :: d :: rest => !(isPySpace c && isPySpace d) && noAdjWs (d :: rest)

theorem noAdjWs_cons (a : Char) (l : List Char) :
    noAdjWs (a :: l) = true ↔
      (noAdjWs l = true ∧
       ∀ d, l.head? = some d → (isPySpace a && isPySpace d) = false) := by
  cases l with
  | nil => simp [noAdjWs]
  | cons d rest =>
      have hdef : noAdjWs (a :: d :: rest) =
          (!(isPySpace a && isPySpace d) && noAdjWs (d :: rest)) := rfl
      constructor
      · intro h
        rw [hdef, Bool.and_eq_true, Bool.not_eq_true'] at h
        refine ⟨h.2, ?_⟩
        intro e he
        rw [List.head?_cons, Option.some.injEq] at he
        exact he ▸ h.1
      · rintro ⟨h1, h2⟩
        rw [hdef, Bool.and_eq_true, Bool.not_eq_true']
        exact ⟨h2 d rfl, h1⟩

/-- The character `collapseWs` would emit first for a given input head. -/
def normC (c : Char) : Char := if isPySpace c then ' ' else c

theorem collapseWs_headNoAdj (l : List Char) :
    (collapseWs l).head? = l.head?.map normC ∧
    noAdjWs (collapseWs l) = true := by
  have key := scan_induction stepWs stepWs_le
    (fun m out => out.head? = m.head?.map normC ∧ noAdjWs out = true)
    ⟨rfl, rfl⟩
    (by
      intro c rest ih
      by_cases hws : isPySpace c = true
      · have hstep : stepWs c rest = ([' '], rest.dropWhile isPySpace) := by
          unfold stepWs
          rw [if_pos hws]
        rw [hstep] at ih ⊢
        simp only [List.singleton_append, List.head?_cons]
        constructor
        · simp [normC, hws]
        · rw [noAdjWs_cons]
          refine ⟨ih.2, ?_⟩
          intro d hd
          rw [ih.1] at hd
          rcases Option.map_eq_some'.mp hd with ⟨e, he, rfl⟩
          have hne := head_dropWhile_false isPySpace rest e he
          simp [normC, hne]
      · have hstep : stepWs c rest = ([c], rest) := by
          unfold stepWs
          rw [if_neg hws]
        rw [hstep] at ih ⊢
        simp only [List.singleton_append, List.head?_cons]
        constructor
        · simp [normC, hws]
        · rw [noAdjWs_cons]
          refine ⟨ih.2, ?_⟩
          intro d _
          simp [hws])
  exact key l

theorem collapseWs_noAdj (l : List Char) : noAdjWs (collapseWs l) = true :=
  (collapseWs_headNoAdj l).2

/-- `collapseWs` is the identity on whitespace-normal text. -/
theorem collapseWs_id (l : List Char)
    (hsp : ∀ c ∈ l, spChar c = true) (hadj : noAdjWs l = true) :
    collapseWs l = l := by
  have key := scan_induction stepWs stepWs_le
    (fun m out => (∀ c ∈ m, spChar c = true) → noAdjWs m = true → out = m)
    (by intro _ _; rfl)
    (by
      intro c rest ih h1 h2
      by_cases hws : isPySpace c = true
      · have hceq : c = ' ' := by
          have := h1 c (List.mem_cons_self _ _)
          simp [spChar, hws] at this
          exact this
        have hdrop : rest.dropWhile isPySpace = rest := by
          apply dropWhile_id_of_head
          intro d hd
          have := (noAdjWs_cons c rest).mp h2
          have h3 := this.2 d hd
          simp [hws] at h3
          exact h3
        have hstep : stepWs c rest = ([' '], rest) := by
          unfold stepWs
          rw [if_pos hws, hdrop]
        rw [hstep] at ih ⊢
        have hrest := ih (fun d hd => h1 d (List.mem_cons_of_mem c hd))
          ((noAdjWs_cons c rest).mp h2).1
        rw [hrest, hceq]
        rfl
      · have hstep : stepWs c rest = ([c], rest) := by
          unfold stepWs
          rw [if_neg hws]
        rw [hstep] at ih ⊢
        have hrest := ih (fun d hd => h1 d (List.mem_cons_of_mem c hd))
          ((noAdjWs_cons c rest).mp h2).1
        rw [hrest]
        rfl)
  exact key l hsp hadj

theorem collapseWs_mem (l : List Char) :
    ∀ c, c ∈ collapseWs l → c ∈ l ∨ c = ' ' := by
  intro c hc
  have h := scan_mem_char stepWs stepWs_le [' ']
    (by
      intro a rest x hx
      unfold stepWs at hx
      split at hx
      · simp only [List.mem_singleton] at hx
        exact Or.inr (by simp [hx])
      · simp only [List.mem_singleton] at hx
        exact Or.inl (hx ▸ List.mem_cons_self _ _))
    (by
      intro a rest x hx
      unfold stepWs at hx
      split at hx
      · exact List.mem_cons_of_mem a ((List.dropWhile_sublist _).subset hx)
      · exact List.mem_cons_of_mem a hx)
    l c hc
  rcases h with h | h
  · exact Or.inl h
  · simp only [List.mem_singleton] at h
    exact Or.inr h

/-! ### Closure of the whitespace normal form under prefixes and
suffixes -/

theorem noAdjWs_append_left :
    ∀ l1 l2 : List Char, noAdjWs (l1 ++ l2) = true → noAdjWs l1 = true := by
  intro l1
  induction l1 with
  | nil => intro l2 _; rfl
  | cons c rest ih =>
      intro l2 h
      rw [List.cons_append, noAdjWs_cons] at h
      rw [noAdjWs_cons]
      refine ⟨ih l2 h.1, ?_⟩
      intro d hd
      apply h.2
      cases rest with
      | nil => simp at hd
      | cons e es =>
          simp only [List.head?_cons] at hd
          simpa using hd

theorem noAdjWs_suffix :
    ∀ l1 l2 : List Char, l1 <:+ l2 → noAdjWs l2 = true → noAdjWs l1 = true := by
  intro l1 l2 hsuf h
  obtain ⟨pre, rfl⟩ := hsuf
  induction pre with
  | nil => exact h
  | cons c cs ih =>
      apply ih
      rw [List.cons_append, noAdjWs_cons] at h
      exact h.1

theorem noAdjWs_within (l1 l2 : List Char) (hinf : l1 <:+: l2)
    (h : noAdjWs l2 = true) : noAdjWs l1 = true := by
  obtain ⟨pre, suf, rfl⟩ := hinf
  have h1 := noAdjWs_suffix (l1 ++ suf) (pre ++ (l1 ++ suf))
    ⟨pre, by simp⟩ (by simpa [List.append_assoc] using h)
  exact noAdjWs_append_left l1 suf h1

theorem pyStrip_within (l : List Char) : pyStrip l <:+: l := by
  unfold pyStrip
  have h1 : (l.dropWhile isPySpace).reverse.dropWhile isPySpace <:+
      (l.dropWhile isPySpace).reverse := List.dropWhile_suffix _
  have h2 : ((l.dropWhile isPySpace).reverse.dropWhile isPySpace).reverse <+:
      ((l.dropWhile isPySpace).reverse).reverse := List.reverse_prefix.mpr h1
  rw [List.reverse_reverse] at h2
  have h3 : l.dropWhile isPySpace <:+ l := List.dropWhile_suffix _
  exact h2.isInfix.trans h3.isInfix

/-! ### The character class closed under the whole pipeline -/

/-- ASCII word characters and the plain space: the alphabet on which the
markup/URL/email/punctuation substitutions have nothing to do. -/
def wordSp (c : Char) : Bool := isWordC c || c == ' '

theorem wordSp_toNat (c : Char) (h : wordSp c = true) :
    (48 ≤ c.toNat ∧ c.toNat ≤ 57) ∨ (65 ≤ c.toNat ∧ c.toNat ≤ 90) ∨
    (97 ≤ c.toNat ∧ c.toNat ≤ 122) ∨ c.toNat = 95 ∨ c.toNat = 32 := by
  unfold wordSp isWordC isDigitC at h
  simp only [Bool.or_eq_true, Bool.and_eq_true, decide_eq_true_eq,
    beq_iff_eq, char_le_iff_toNat, char_eq_iff_toNat] at h
  have e1 : Char.toNat 'a' = 97 := by decide
  have e2 : Char.toNat 'z' = 122 := by decide
  have e3 : Char.toNat 'A' = 65 := by decide
  have e4 : Char.toNat 'Z' = 90 := by decide
  have e5 : Char.toNat '0' = 48 := by decide
  have e6 : Char.toNat '9' = 57 := by decide
  have e7 : Char.toNat '_' = 95 := by decide
  have e8 : Char.toNat ' ' = 32 := by decide
  omega

theorem isPySpace_iff (c : Char) :
    isPySpace c = true ↔
      ((9 ≤ c.toNat ∧ c.toNat ≤ 13) ∨ (28 ≤ c.toNat ∧ c.toNat ≤ 31) ∨
       c.toNat = 32 ∨ c.toNat = 0x85 ∨ c.toNat = 0xA0 ∨ c.toNat = 0x1680 ∨
       (0x2000 ≤ c.toNat ∧ c.toNat ≤ 0x200A) ∨ c.toNat = 0x2028 ∨
       c.toNat = 0x2029 ∨ c.toNat = 0x202F ∨ c.toNat = 0x205F ∨
       c.toNat = 0x3000) := by
  unfold isPySpace
  simp only [Bool.or_eq_true, Bool.and_eq_true, decide_eq_true_eq, beq_iff_eq]
  omega

theorem wordSp_spChar (c : Char) (h : wordSp c = true) : spChar c = true := by
  unfold spChar
  rw [Bool.or_eq_true]
  by_cases hsp : c = ' '
  · right
    simp [hsp]
  · left
    rw [Bool.not_eq_true']
    rw [Bool.eq_false_iff]
    intro hws
    have hn := (isPySpace_iff c).mp hws
    have hne : c.toNat ≠ 32 := by
      intro h32
      exact hsp (char_eq_iff_toNat.mpr (by rw [h32]; rfl))
    rcases wordSp_toNat c h with h1|h1|h1|h1|h1 <;> omega

theorem wordSp_kept (c : Char) (h : wordSp c = true) : keptChar c = true := by
  unfold keptChar
  rw [Bool.or_eq_true]
  left
  rw [decide_eq_true_eq]
  rcases wordSp_toNat c h with h1|h1|h1|h1|h1 <;> omega

theorem absent_of_wordSp (l : List Char) (h : ∀ c ∈ l, wordSp c = true)
    (d : Char) (hd : wordSp d = false) : d ∉ l := by
  intro hmem
  rw [h d hmem] at hd
  cases hd

theorem lowerAscii_toNat_wordSp (c : Char) (h : wordSp c = true) :
    (48 ≤ (lowerAscii c).toNat ∧ (lowerAscii c).toNat ≤ 57) ∨
    (97 ≤ (lowerAscii c).toNat ∧ (lowerAscii c).toNat ≤ 122) ∨
    (lowerAscii c).toNat = 95 ∨ (lowerAscii c).toNat = 32 := by
  have ht := toNat_lowerAscii c
  rcases wordSp_toNat c h with h1|h1|h1|h1|h1 <;> rw [ht] <;> split_ifs <;>
    omega

/-- For a word-or-space character `c`, the first comparison of the
case-insensitive `<script`/`<style` literal match already fails. -/
theorem lowerAscii_ne_lt (c : Char) (h : wordSp c = true) :
    (lowerAscii '<' == lowerAscii c) = false := by
  have hlt : lowerAscii '<' = '<' := by decide
  rw [hlt, beq_eq_false_iff_ne]
  intro he
  have h1 := lowerAscii_toNat_wordSp c h
  rw [← he] at h1
  have h60 : ('<').toNat = 60 := by decide
  omega

/-! ### Identity of the remaining substitutions on word-or-space text -/

theorem stripScript_id (l : List Char) (h : ∀ c ∈ l, wordSp c = true) :
    stripScript l = l := by
  have key := scan_induction stepScript stepScript_le
    (fun m out => (∀ c ∈ m, wordSp c = true) → out = m)
    (by intro _; rfl)
    (by
      intro c rest ih hm
      have hcond : ciPrefixOf ['<', 's', 'c', 'r', 'i', 'p', 't']
          (c :: rest) = false := by
        have hdef : ciPrefixOf ['<', 's', 'c', 'r', 'i', 'p', 't']
            (c :: rest) =
            ((lowerAscii '<' == lowerAscii c) &&
              ciPrefixOf ['s', 'c', 'r', 'i', 'p', 't'] rest) := rfl
        rw [hdef, lowerAscii_ne_lt c (hm c (List.mem_cons_self _ _)),
          Bool.false_and]
      have hstep : stepScript c rest = ([c], rest) := by
        unfold stepScript
        rw [if_neg (by simp [hcond])]
      rw [hstep] at ih ⊢
      rw [ih (fun d hd => hm d (List.mem_cons_of_mem c hd))]
      rfl)
  exact key l h

theorem stripStyle_id (l : List Char) (h : ∀ c ∈ l, wordSp c = true) :
    stripStyle l = l := by
  have key := scan_induction stepStyle stepStyle_le
    (fun m out => (∀ c ∈ m, wordSp c = true) → out = m)
    (by intro _; rfl)
    (by
      intro c rest ih hm
      have hcond : ciPrefixOf ['<', 's', 't', 'y', 'l', 'e']
          (c :: rest) = false := by
        have hdef : ciPrefixOf ['<', 's', 't', 'y', 'l', 'e'] (c :: rest) =
            ((lowerAscii '<' == lowerAscii c) &&
              ciPrefixOf ['s', 't', 'y', 'l', 'e'] rest) := rfl
        rw [hdef, lowerAscii_ne_lt c (hm c (List.mem_cons_self _ _)),
          Bool.false_and]
      have hstep : stepStyle c rest = ([c], rest) := by
        unfold stepStyle
        rw [if_neg (by simp [hcond])]
      rw [hstep] at ih ⊢
      rw [ih (fun d hd => hm d (List.mem_cons_of_mem c hd))]
      rfl)
  exact key l h

theorem subUrls_id (l : List Char) (h : ':' ∉ l) : subUrls l = l := by
  have key := scan_induction stepUrls stepUrls_le
    (fun m out => ':' ∉ m → out = m)
    (by intro _; rfl)
    (by
      intro c rest ih hm
      have hc1 : ¬("https://".toList.isPrefixOf (c :: rest) = true) :=
        fun hp => hm (isPrefixOf_mem hp ':' (by decide))
      have hc2 : ¬("http://".toList.isPrefixOf (c :: rest) = true) :=
        fun hp => hm (isPrefixOf_mem hp ':' (by decide))
      have hstep : stepUrls c rest = ([c], rest) := by
        unfold stepUrls
        rw [if_neg hc1, if_neg hc2]
      rw [hstep] at ih ⊢
      rw [ih (fun hd => hm (List.mem_cons_of_mem c hd))]
      rfl)
  exact key l h

theorem emailTok_at (t : List Char) (h : emailTok t = true) : '@' ∈ t := by
  unfold emailTok at h
  rw [List.any_eq_true] at h
  obtain ⟨a, ha, hconj⟩ := h
  rw [Bool.and_eq_true, Bool.and_eq_true] at hconj
  have hget : (t.getD a ' ' == '@') = true := hconj.1.2
  rw [beq_iff_eq] at hget
  rw [List.mem_range] at ha
  rw [List.getD_eq_getElem t ' ' ha] at hget
  rw [← hget]
  exact List.getElem_mem ha

theorem subEmails_id (l : List Char) (h : '@' ∉ l) : subEmails l = l := by
  have key := scan_induction stepEmails stepEmails_le
    (fun m out => '@' ∉ m → out = m)
    (by intro _; rfl)
    (by
      intro c rest ih hm
      by_cases hws : isPySpace c = true
      · have hstep : stepEmails c rest = ([c], rest) := by
          unfold stepEmails
          rw [if_pos hws]
        rw [hstep] at ih ⊢
        rw [ih (fun hd => hm (List.mem_cons_of_mem c hd))]
        rfl
      · have htok : emailTok (c :: rest.takeWhile (fun d => !isPySpace d)) =
            false := by
          rw [Bool.eq_false_iff]
          intro htk
          have hat := emailTok_at _ htk
          rcases List.mem_cons.mp hat with he | he
          · exact hm (he ▸ List.mem_cons_self _ _)
          · exact hm (List.mem_cons_of_mem c
              ((List.takeWhile_sublist _).subset he))
        have hstep : stepEmails c rest =
            (c :: rest.takeWhile (fun d => !isPySpace d),
             rest.dropWhile (fun d => !isPySpace d)) := by
          unfold stepEmails
          rw [if_neg hws, htok]
          simp
        rw [hstep] at ih ⊢
        have hsub : '@' ∉ rest.dropWhile (fun d => !isPySpace d) :=
          fun hd => hm (List.mem_cons_of_mem c
            ((List.dropWhile_sublist _).subset hd))
        rw [ih hsub]
        rw [List.cons_append, List.takeWhile_append_dropWhile])
  exact key l h

/-! ### `pyStrip` is idempotent -/

theorem pyStrip_head (l : List Char) :
    ∀ d, (pyStrip l).head? = some d → isPySpace d = false := by
  intro d hd
  unfold pyStrip at hd
  rw [List.head?_reverse] at hd
  rcases hB : (l.dropWhile isPySpace).reverse.dropWhile isPySpace with _ | ⟨b, bs⟩
  · rw [hB] at hd
    simp at hd
  · have hBne : (l.dropWhile isPySpace).reverse.dropWhile isPySpace ≠ [] := by
      rw [hB]
      exact List.cons_ne_nil b bs
    obtain ⟨pre, hpre⟩ :=
      List.dropWhile_suffix (l := (l.dropWhile isPySpace).reverse)
        (p := isPySpace)
    have hlast : ((l.dropWhile isPySpace).reverse.dropWhile
        isPySpace).getLast? = (l.dropWhile isPySpace).reverse.getLast? := by
      conv_rhs => rw [← hpre]
      exact (List.getLast?_append_of_ne_nil pre hBne).symm
    rw [hlast, List.getLast?_reverse] at hd
    exact head_dropWhile_false isPySpace l d hd

theorem pyStrip_last (l : List Char) :
    ∀ d, (pyStrip l).getLast? = some d → isPySpace d = false := by
  intro d hd
  unfold pyStrip at hd
  rw [List.getLast?_reverse] at hd
  exact head_dropWhile_false isPySpace _ d hd

theorem pyStrip_id (y : List Char)
    (h1 : ∀ d, y.head? = some d → isPySpace d = false)
    (h2 : ∀ d, y.getLast? = some d → isPySpace d = false) :
    pyStrip y = y := by
  unfold pyStrip
  rw [dropWhile_id_of_head isPySpace y h1]
  rw [dropWhile_id_of_head isPySpace y.reverse
    (fun d hd => h2 d (by rwa [List.head?_reverse] at hd))]
  exact List.reverse_reverse y

theorem pyStrip_idem (l : List Char) : pyStrip (pyStrip l) = pyStrip l :=
  pyStrip_id (pyStrip l) (pyStrip_head l) (pyStrip_last l)


/-! ### `clean_text` on the plain alphabet, and idempotence -/

/-- The plain alphabet: ASCII letters, digits, underscore, and Python
whitespace.  On such input the markup, URL, email and punctuation
substitutions of `clean_text` all match nothing. -/
def plainChar (c : Char) : Bool := isWordC c || isPySpace c

theorem collapseWs_strip_wordSp (x : List Char)
    (h : ∀ c ∈ x, plainChar c = true) :
    ∀ c ∈ collapseWs (stripNonKept x), wordSp c = true := by
  intro c hc
  have hsp := collapseWs_sp (stripNonKept x) c hc
  rcases collapseWs_mem _ c hc with hm | hm
  · have hx : c ∈ x := List.mem_of_mem_filter hm
    have hp := h c hx
    unfold plainChar at hp
    rw [Bool.or_eq_true] at hp
    rcases hp with hp | hp
    · unfold wordSp
      rw [hp, Bool.true_or]
    · unfold spChar at hsp
      rw [hp] at hsp
      simp only [Bool.not_true, Bool.false_or, beq_iff_eq] at hsp
      subst hsp
      decide
  · subst hm
    decide

/-- On plain input the whole pipeline reduces to control-character
removal, whitespace collapsing and the final strip: every other
substitution of `clean_text` is the identity. -/
theorem cleanText_plain (x : List Char) (hx : x ≠ [])
    (h : ∀ c ∈ x, plainChar c = true) :
    cleanText x = pyStrip (collapseWs (stripNonKept x)) := by
  have hw := collapseWs_strip_wordSp x h
  rw [cleanText_unfold x hx]
  set y0 := collapseWs (stripNonKept x) with hy0
  rw [stripComments_id y0 (absent_of_wordSp y0 hw '<' (by decide)),
    stripScript_id y0 hw, stripStyle_id y0 hw,
    stripTags_id y0 (absent_of_wordSp y0 hw '<' (by decide)),
    subUrls_id y0 (absent_of_wordSp y0 hw ':' (by decide)),
    subEmails_id y0 (absent_of_wordSp y0 hw '@' (by decide)),
    collapsePunct_id '.' 3 3 y0 (absent_of_wordSp y0 hw '.' (by decide)),
    collapsePunct_id '!' 2 1 y0 (absent_of_wordSp y0 hw '!' (by decide)),
    collapsePunct_id '?' 2 1 y0 (absent_of_wordSp y0 hw '?' (by decide))]

/-- C5: the claim as stated is false (see the counterexample: removing an
HTML tag after whitespace has been collapsed leaves a double space that a
second pass merges).  The amended claim holds: on input made of ASCII
letters, digits, underscores and whitespace — where none of the
markup/URL/email/punctuation substitutions can match — `clean_text` is
idempotent. -/
theorem C5_normalize_idempotent (x : List Char)
    (h : ∀ c ∈ x, plainChar c = true) :
    cleanText (cleanText x) = cleanText x := by
  by_cases hx : x = []
  · subst hx
    decide
  · have hw := collapseWs_strip_wordSp x h
    have hA := cleanText_plain x hx h
    set y0 := collapseWs (stripNonKept x) with hy0
    have hysub : ∀ c ∈ pyStrip y0, wordSp c = true :=
      fun c hc => hw c (pyStrip_subset y0 c hc)
    by_cases hy : pyStrip y0 = []
    · rw [hA, hy]
      decide
    · have hplain : ∀ c ∈ pyStrip y0, plainChar c = true := by
        intro c hc
        have h2 := hysub c hc
        unfold wordSp at h2
        rw [Bool.or_eq_true] at h2
        unfold plainChar
        rw [Bool.or_eq_true]
        rcases h2 with h1 | h1
        · exact Or.inl h1
        · rw [beq_iff_eq] at h1
          subst h1
          right
          decide
      have hB := cleanText_plain (pyStrip y0) hy hplain
      rw [hA, hB]
      have hkept : stripNonKept (pyStrip y0) = pyStrip y0 :=
        List.filter_eq_self.mpr (fun c hc => wordSp_kept c (hysub c hc))
      rw [hkept]
      have hadj : noAdjWs (pyStrip y0) = true :=
        noAdjWs_within _ y0 (pyStrip_within y0) (collapseWs_noAdj _)
      have hspy : ∀ c ∈ pyStrip y0, spChar c = true :=
        fun c hc => wordSp_spChar c (hysub c hc)
      rw [collapseWs_id (pyStrip y0) hspy hadj]
      exact pyStrip_idem y0

/-- Witness for C5 at a concrete plain input. -/
theorem C5_normalize_idempotent_witness :
    (∀ c ∈ "ab  cd".toList, plainChar c = true) ∧
      cleanText (cleanText "ab  cd".toList) = cleanText "ab  cd".toList :=
  ⟨by decide, C5_normalize_idempotent _ (by decide)⟩

/-- Counterexample to C5 as stated: the whitespace collapse (line 153)
runs before the tag removal (line 162), so removing `<b>` from
`a <b> c` leaves the double space `a  c`; a second application merges it
to `a c`. -/
theorem C5_counterexample :
    cleanText (cleanText "a <b> c".toList) ≠ cleanText "a <b> c".toList := by
  decide

end Spec2Proof
